import Mathlib

/-!
# Verification of the bloodhound intrusive AVL map (`src/map.c`)

This file gives a shallow embedding of the intrusive AVL tree implemented in
`src/map.c` (the fully realized draft of the repository), together with a
model of the early string utility `alloc_and_copy` from `src/internal/str.c`,
and proves or refutes the frozen claims about the specification.

Pointers are modelled by an inductive tree type (`Node`), with `nil` playing
the role of `NULL`.  The caller-supplied comparator is passed to each
operation as a function argument, exactly as the C code invokes the stored
`compare` function pointer.  The deleter is modelled by having each operation
return the list of payloads it passes to the deleter, in call order.
`AvlNode **` edge pointers are modelled by root-relative paths (`List Dir`),
and the `NodeStack`/`BitStack` retrace state of deletion is modelled by a
zipper (`List Crumb`): each crumb records the parent node's payload, its
balance factor and the sibling subtree, which is precisely the information
the C code reconstructs from `NodeStack_get`/`BitStack_get`.
-/

namespace Bloodhound

/-- A descent direction: `l` is a step into `left` (a set bit pushed by
`BitStack_push_set`), `r` a step into `right` (a cleared bit). -/
inductive Dir where
  | l
  | r
deriving DecidableEq, Repr

/-- `struct AvlNode` from `include/bloodhound.h`: `left` and `right`
children and a `balance_factor`, plus the payload of the enclosing
caller-defined struct (the intrusive node's identity).  `nil` is `NULL`. -/
inductive Node (α : Type) where
  | nil
  | node (left : Node α) (data : α) (balance_factor : Int) (right : Node α)
deriving Repr, DecidableEq

/-- Height of a subtree: 0 for `NULL`, one more than the taller child
otherwise. -/
def height : Node α → Nat
  | .nil => 0
  | .node l _ _ r => max (height l) (height r) + 1

/-- Number of nodes reachable from a root. -/
def size : Node α → Nat
  | .nil => 0
  | .node l _ _ r => size l + size r + 1

/-- In-order traversal of the payloads. -/
def inorder : Node α → List α
  | .nil => []
  | .node l x _ r => inorder l ++ x :: inorder r

/-- Modelled from the spec: `rotate_left_unchecked(top, bottom)` (declared in
`src/internal/node.h`, implementation not in the repository snapshot) is the
pure pointer rewiring `T.right := B.left; B.left := T` with no balance-factor
updates, returning `B`.  The C caller always passes `bottom == top->right`,
so the embedding takes the top node alone. -/
def rotate_left_unchecked : Node α → Node α
  | .node l x bf (.node rl y ybf rr) => .node (.node l x bf rl) y ybf rr
  | t => t

/-- Modelled from the spec: `rotate_right_unchecked(top, bottom)` is the
mirror rewiring `T.left := B.right; B.right := T`, returning `B`. -/
def rotate_right_unchecked : Node α → Node α
  | .node (.node ll y ybf lr) x bf r => .node ll y ybf (.node lr x bf r)
  | t => t

/-- Modelled from the spec: `rotate(root)` (declared in
`src/internal/node.h`, implementation not in the repository snapshot)
automatically selects a rotation after insertion.  With `root.bf == 2` and
`root.right.bf == -1` it performs a right-left double rotation, otherwise a
single left rotation; mirrored for `root.bf == -2`; any other balance factor
leaves the tree unchanged.  Balance-factor updates follow the §4.1 tables of
the specification (both ends 0 for a single rotation; for a double rotation
the new balance factors are selected by the pre-rotation balance factor of
the bottom node, which itself becomes 0). -/
def rotate (t : Node α) : Node α :=
  match t with
  | .nil => .nil
  | .node l x bf r =>
    if bf = 2 then
      match r with
      | .nil => t
      | .node ml mx mbf mr =>
        if mbf = -1 then
          match ml with
          | .nil => t
          | .node bl bx bbf br =>
            let xbf : Int := if bbf = 1 then -1 else 0
            let mbf2 : Int := if bbf = -1 then 1 else 0
            .node (.node l x xbf bl) bx 0 (.node br mx mbf2 mr)
        else
          .node (.node l x 0 ml) mx 0 mr
    else if bf = -2 then
      match l with
      | .nil => t
      | .node ml mx mbf mr =>
        if mbf = 1 then
          match mr with
          | .nil => t
          | .node bl bx bbf br =>
            let xbf : Int := if bbf = -1 then 1 else 0
            let mbf2 : Int := if bbf = 1 then -1 else 0
            .node (.node ml mx mbf2 bl) bx 0 (.node br x xbf r)
        else
          .node ml mx 0 (.node mr x 0 r)
    else t

/-- `find` from `src/map.c:115`: iterative descent by the heterogeneous
comparator; returns the matching node (as the subtree it roots) or `nil`. -/
def find (cmp : β → α → Int) (key : β) : Node α → Node α
  | .nil => .nil
  | .node l x bf r =>
    let o := cmp key x
    if o = 0 then .node l x bf r
    else if o < 0 then find cmp key l
    else find cmp key r

/-- Navigate a root-relative path (the functional image of an
`AvlNode **` edge pointer). -/
def subtreeAt : Node α → List Dir → Node α
  | t, [] => t
  | .nil, _ :: _ => .nil
  | .node l _ _ _, Dir.l :: p => subtreeAt l p
  | .node _ _ _ r, Dir.r :: p => subtreeAt r p

/-- Write a subtree through a root-relative path (the functional image of
assigning through an `AvlNode **`). -/
def replaceAt : Node α → List Dir → Node α → Node α
  | _, [], s => s
  | .nil, _ :: _, _ => .nil
  | .node l x bf r, Dir.l :: p, s => .node (replaceAt l p s) x bf r
  | .node l x bf r, Dir.r :: p, s => .node l x bf (replaceAt r p s)

/-- `struct NodeOrParentRet` from `src/map.c:139`, with the two
`AvlNode **` fields rendered as root-relative paths.  `path` is
`node_or_parent` (the found node, or the empty slot where a new child
attaches); `rotate_path` is `last_with_nonzero_balance_factor`
(`none` models `NULL`); `trail` is the final contents of the
`is_left_flags` bit stack, oldest direction first. -/
structure FindRet where
  is_node : Bool
  path : List Dir
  rotate_path : Option (List Dir)
  trail : List Dir
deriving Repr

/-- The descent loop of `find_node_or_parent` (`src/map.c:296`).
`path` accumulates the directions from the root to the current node,
`rpath` is the current `rotate_root_ptr` and `trail` the current bit
stack; whenever the current node has a nonzero balance factor the
rotate root is reset to it and the trail cleared, before the direction
taken out of it is pushed. -/
def find_node_or_parent_loop (cmp : β → α → Int) (key : β) :
    Node α → List Dir → List Dir → List Dir → FindRet
  | .nil, path, _, trail => ⟨false, path, none, trail⟩
  | .node l x bf r, path, rpath, trail =>
    if cmp key x = 0 then ⟨true, path, none, trail⟩
    else
      let rpath2 := if bf ≠ 0 then path else rpath
      let trail2 := if bf ≠ 0 then [] else trail
      if cmp key x < 0 then
        match l with
        | .nil => ⟨false, path ++ [Dir.l], some rpath2, trail2 ++ [Dir.l]⟩
        | .node a b c d =>
          find_node_or_parent_loop cmp key (.node a b c d)
            (path ++ [Dir.l]) rpath2 (trail2 ++ [Dir.l])
      else
        match r with
        | .nil => ⟨false, path ++ [Dir.r], some rpath2, trail2 ++ [Dir.r]⟩
        | .node a b c d =>
          find_node_or_parent_loop cmp key (.node a b c d)
            (path ++ [Dir.r]) rpath2 (trail2 ++ [Dir.r])

/-- `find_node_or_parent` from `src/map.c:276`.  An empty tree yields the
root slot with a `NULL` rotate root; otherwise the descent loop runs with
the rotate root initialized to the root edge. -/
def find_node_or_parent (cmp : β → α → Int) (key : β) (root : Node α) : FindRet :=
  match root with
  | .nil => ⟨false, [], none, []⟩
  | .node a b c d => find_node_or_parent_loop cmp key (.node a b c d) [] [] []

/-- The balance-factor adjustment walk of `rebalance` (`src/map.c:339`):
from the rotate root, follow the saved trail to the inserted node,
decrementing the balance factor when descending left and incrementing it
when descending right. -/
def adjustPath : Node α → List Dir → Node α
  | t, [] => t
  | .nil, _ :: _ => .nil
  | .node l x bf r, Dir.l :: p => .node (adjustPath l p) x (bf - 1) r
  | .node l x bf r, Dir.r :: p => .node l x (bf + 1) (adjustPath r p)

/-- `rebalance` from `src/map.c:331`: adjust the balance factors along the
trail, then apply `rotate` at the rotate root and store its result there. -/
def rebalance (s : Node α) (trail : List Dir) : Node α :=
  rotate (adjustPath s trail)

/-- `struct AvlTree` from `include/bloodhound.h`: the root edge and the
`len` counter.  The `compare`/`deleter` function pointers are passed to each
operation rather than stored. -/
structure AvlTree (α : Type) where
  root : Node α
  len : Nat
deriving Repr, DecidableEq

/-- `AvlTree_new` (`src/map.c:53`): the empty tree. -/
def AvlTree_new : AvlTree α := ⟨.nil, 0⟩

/-- Result of `AvlTree_insert`: the updated tree, the returned previous
node (`nil` for `NULL`; a displaced duplicate is handed back with both
children `NULL` and balance factor 0), and the payloads passed to the
deleter (none: `AvlTree_insert` never invokes the deleter). -/
structure InsertRet (α : Type) where
  tree : AvlTree α
  previous : Node α
  deleted : List α
deriving Repr

/-- `AvlTree_insert` from `src/map.c:167`.  A key-equal node is swapped out:
the new payload takes over the children and balance factor of the previous
node, which is returned detached.  Otherwise the new node is linked into the
empty slot with zeroed children and balance factor, `len` is incremented,
and if a rotate root was recorded the retrace/rotation is performed there. -/
def AvlTree_insert (cmp : α → α → Int) (t : AvlTree α) (a : α) : InsertRet α :=
  let ret := find_node_or_parent cmp a t.root
  if ret.is_node then
    match subtreeAt t.root ret.path with
    | .node l x bf r =>
      ⟨⟨replaceAt t.root ret.path (.node l a bf r), t.len⟩, .node .nil x 0 .nil, []⟩
    | .nil => ⟨⟨t.root, t.len⟩, .nil, []⟩
  else
    let root1 := replaceAt t.root ret.path (.node .nil a 0 .nil)
    match ret.rotate_path with
    | none => ⟨⟨root1, t.len + 1⟩, .nil, []⟩
    | some rp =>
      ⟨⟨replaceAt root1 rp (rebalance (subtreeAt root1 rp) ret.trail), t.len + 1⟩,
        .nil, []⟩

/-- Result of `AvlTree_get_or_insert`: the updated tree, the payload of the
returned node (`equal_or_inserted`), the value written through the
`inserted` out-parameter, and the number of times the `insert` factory
callback was invoked. -/
structure GetOrInsertRet (α : Type) where
  tree : AvlTree α
  result : α
  inserted : Int
  factory_calls : Nat

/-- `AvlTree_get_or_insert` from `src/map.c:229`.  When a key-equal node is
found it is returned unchanged with `*inserted = 0` and the factory is not
invoked; otherwise the factory is invoked once, its node is linked into the
empty slot with zeroed children and balance factor, `len` is incremented,
`*inserted = 1`, and the retrace/rotation is performed as for insert. -/
def AvlTree_get_or_insert (cmp : β → α → Int) (t : AvlTree α) (key : β)
    (fac : Unit → α) : GetOrInsertRet α :=
  let ret := find_node_or_parent cmp key t.root
  if ret.is_node then
    match subtreeAt t.root ret.path with
    | .node _ x _ _ => ⟨t, x, 0, 0⟩
    | .nil => ⟨t, fac (), 0, 0⟩
  else
    let a := fac ()
    let root1 := replaceAt t.root ret.path (.node .nil a 0 .nil)
    match ret.rotate_path with
    | none => ⟨⟨root1, t.len + 1⟩, a, 1, 1⟩
    | some rp =>
      ⟨⟨replaceAt root1 rp (rebalance (subtreeAt root1 rp) ret.trail), t.len + 1⟩,
        a, 1, 1⟩

/-- One frame of the deletion retrace state: the information the retrace
loop recovers from the `NodeStack`/`BitStack` pair for one ancestor.
`cl x bf r` records a parent of payload `x` and balance factor `bf` whose
left child was descended into (a set direction bit), `r` being its right
child; `cr l x bf` is the mirror. -/
inductive Crumb (α : Type) where
  | cl (data : α) (balance_factor : Int) (right : Node α)
  | cr (left : Node α) (data : α) (balance_factor : Int)
deriving Repr

/-- Rebuild a tree from a subtree and its crumb trail (innermost crumb
first). -/
def plug : List (Crumb α) → Node α → Node α
  | [], t => t
  | .cl x bf r :: cs, t => plug cs (.node t x bf r)
  | .cr l x bf :: cs, t => plug cs (.node l x bf t)

/-- The descent loop of `AvlTree_remove` (`src/map.c:384`): find the node
comparing equal to the key, accumulating the `NodeStack`/`BitStack` state as
crumbs.  Returns `none` when no such node exists (the in-loop
`return 0`). -/
def searchCrumbs (cmp : β → α → Int) (key : β) :
    Node α → List (Crumb α) → Option ((Node α × α × Int × Node α) × List (Crumb α))
  | .nil, _ => none
  | .node l x bf r, cs =>
    let o := cmp key x
    if o = 0 then some ((l, x, bf, r), cs)
    else if o < 0 then searchCrumbs cmp key l (.cl x bf r :: cs)
    else searchCrumbs cmp key r (.cr l x bf :: cs)

/-- The successor-hunting loop of `swap_for_delete` (`src/map.c:471`),
called on the components of the target's right child: walk to the leftmost
node, pushing a crumb per step.  Returns the crumbs between the successor's
original slot and the target's right edge (innermost first), the successor's
payload, and the successor's right child (which replaces it in its old
slot). -/
def splitMin : Node α → α → Int → Node α → List (Crumb α) × α × Node α
  | .nil, x, _, r => ([], x, r)
  | .node ll lx lbf lr, x, bf, r =>
    let res := splitMin ll lx lbf lr
    (res.1 ++ [.cl x bf r], res.2.1, res.2.2)

/-- `update_balance_factors_and_rebalance` from `src/map.c:498`: the
deletion retrace loop.  Pop one crumb at a time; coming out of the left
side increments the parent's balance factor, coming out of the right side
decrements it.  A new balance factor of the same sign magnitude 1 stops the
retrace; 0 continues it; magnitude 2 applies the rotation selected by the
sibling's balance factor, stopping exactly in the sibling-balance-factor-0
single-rotation case and continuing otherwise. -/
def update_balance_factors_and_rebalance : List (Crumb α) → Node α → Node α
  | [], t => t
  | .cl x bf r :: cs, t =>
    let bf2 := bf + 1
    if bf2 = 1 then plug cs (.node t x 1 r)
    else if bf2 = 2 then
      match r with
      | .nil => plug cs (.node t x 2 .nil)
      | .node ml mx mbf mr =>
        if mbf = -1 then
          match ml with
          | .nil => plug cs (.node t x 2 (.node .nil mx mbf mr))
          | .node bl bx bbf br =>
            let xbf : Int := if bbf = 1 then -1 else 0
            let mbf2 : Int := if bbf = -1 then 1 else 0
            update_balance_factors_and_rebalance cs
              (.node (.node t x xbf bl) bx 0 (.node br mx mbf2 mr))
        else if mbf = 0 then
          plug cs (.node (.node t x 1 ml) mx (-1) mr)
        else
          update_balance_factors_and_rebalance cs (.node (.node t x 0 ml) mx 0 mr)
    else update_balance_factors_and_rebalance cs (.node t x bf2 r)
  | .cr l x bf :: cs, t =>
    let bf2 := bf - 1
    if bf2 = -1 then plug cs (.node l x (-1) t)
    else if bf2 = -2 then
      match l with
      | .nil => plug cs (.node .nil x (-2) t)
      | .node ml mx mbf mr =>
        if mbf = 1 then
          match mr with
          | .nil => plug cs (.node (.node ml mx mbf .nil) x (-2) t)
          | .node bl bx bbf br =>
            let xbf : Int := if bbf = -1 then 1 else 0
            let mbf2 : Int := if bbf = 1 then -1 else 0
            update_balance_factors_and_rebalance cs
              (.node (.node ml mx mbf2 bl) bx 0 (.node br x xbf t))
        else if mbf = 0 then
          plug cs (.node ml mx 1 (.node mr x (-1) t))
        else
          update_balance_factors_and_rebalance cs (.node ml mx 0 (.node mr x 0 t))
    else update_balance_factors_and_rebalance cs (.node l x bf2 t)

/-- `remove_node` (`src/map.c:421`) together with `swap_for_delete`
(`src/map.c:456`), acting on the components of the found node and its crumb
trail.  A node with two children is replaced by its in-order successor,
which inherits the node's left child, its balance factor, and (unless the
successor is the right child itself) its right child, while the successor's
old slot receives the successor's right child; the retrace then starts from
that slot.  Otherwise the node's slot receives its only child or `NULL` and
the retrace starts there. -/
def remove_node (l : Node α) (x : α) (bf : Int) (r : Node α)
    (cs : List (Crumb α)) : Node α :=
  match l, r with
  | .node a b c d, .node rl rx rbf rr =>
    let res := splitMin rl rx rbf rr
    update_balance_factors_and_rebalance
      (res.1 ++ .cr (.node a b c d) res.2.1 bf :: cs) res.2.2
  | .node a b c d, .nil =>
    update_balance_factors_and_rebalance cs (.node a b c d)
  | .nil, .node a b c d =>
    update_balance_factors_and_rebalance cs (.node a b c d)
  | .nil, .nil => update_balance_factors_and_rebalance cs .nil

/-- Result of `AvlTree_remove`: the updated tree, the returned node (`nil`
for `NULL`; an evicted node is handed back with both children `NULL` and
balance factor 0), and the payloads passed to the deleter (none:
`AvlTree_remove` never invokes the deleter). -/
structure RemoveRet (α : Type) where
  tree : AvlTree α
  removed : Node α
  deleted : List α
deriving Repr

/-- `AvlTree_remove` from `src/map.c:371`.  On an empty tree the descent
loop exits immediately and `remove_node` is reached with a `NULL` node
pointer: the function dereferences `NULL` (after a failed debug assertion)
and decrements `len` past zero — modelled as `none` (undefined behavior).
Otherwise an unsuccessful search returns the tree unchanged with a `NULL`
result, and a successful one removes the node, decrements `len`, and hands
the detached node back. -/
def AvlTree_remove (cmp : β → α → Int) (t : AvlTree α) (key : β) :
    Option (RemoveRet α) :=
  match t.root with
  | .nil => none
  | .node a b c d =>
    match searchCrumbs cmp key (.node a b c d) [] with
    | none => some ⟨t, .nil, []⟩
    | some ((fl, fx, fbf, fr), cs) =>
      some ⟨⟨remove_node fl fx fbf fr cs, t.len - 1⟩, .node .nil fx 0 .nil, []⟩

/-- `AvlTree_get` from `src/map.c:91`: a pure lookup. -/
def AvlTree_get (cmp : β → α → Int) (t : AvlTree α) (key : β) : Node α :=
  find cmp key t.root

/-- The inner `while (current->left)` loop of `AvlTree_clear`
(`src/map.c:660`): right-rotate (unchecked) until the current node has no
left child.  The left child's size is the loop variant. -/
def flattenLeft : Node α → Node α
  | .nil => .nil
  | .node .nil x bf r => .node .nil x bf r
  | .node (.node ll lx lbf lr) x bf r =>
    flattenLeft (.node ll lx lbf (.node lr x bf r))
termination_by t => (fun s => match s with | .nil => 0 | .node l _ _ _ => size l) t
decreasing_by
  simp [size]
  omega

/-- The outer loop of `AvlTree_clear` (`src/map.c:657`): flatten the left
spine, pass the current node to the deleter, continue with its right child.
Returns the deleter invocations in call order. -/
def clearLoop : Node α → List α
  | .nil => []
  | .node .nil x _ r => x :: clearLoop r
  | .node (.node ll lx lbf lr) x bf r =>
    clearLoop (.node ll lx lbf (.node lr x bf r))
termination_by t =>
  ((fun s => size s) t, (fun s => match s with | .nil => 0 | .node l _ _ _ => size l) t)
decreasing_by
  · simp [size]
    omega
  · simp [size]
    omega

/-- `AvlTree_clear` from `src/map.c:647`: destroy every node via the
right-rotation flattening loop, then reset the root and `len`.  Returns the
emptied tree and the payloads passed to the deleter, in call order. -/
def AvlTree_clear (t : AvlTree α) : AvlTree α × List α :=
  (⟨.nil, 0⟩, clearLoop t.root)

/-- `AvlTree_drop` from `src/map.c:74`: equivalent to `AvlTree_clear`. -/
def AvlTree_drop (t : AvlTree α) : AvlTree α × List α :=
  AvlTree_clear t

/-! ## Specification-side predicates -/

/-- The AVL invariant of §3 of the specification, invariants (2) and (3):
at every node the stored balance factor equals the height of the right
subtree minus the height of the left subtree, and has magnitude at most
one. -/
def Avl : Node α → Prop
  | .nil => True
  | .node l _ bf r =>
    Avl l ∧ Avl r ∧ bf = (height r : Int) - (height l : Int) ∧ bf.natAbs ≤ 1

/-- The BST ordering invariant of §3 of the specification, invariant (1):
at every node, all payloads of the left subtree compare strictly below the
node and all payloads of the right subtree strictly above, under the
tree's comparator. -/
def Ordered (cmp : α → α → Int) : Node α → Prop
  | .nil => True
  | .node l x _ r =>
    Ordered cmp l ∧ Ordered cmp r ∧
      (∀ b ∈ inorder l, cmp b x < 0) ∧ (∀ b ∈ inorder r, cmp x b < 0)

/-- A property holding at every node of a tree (used to state per-node
invariants the way the claims phrase them). -/
def EveryNode (P : Node α → α → Int → Node α → Prop) : Node α → Prop
  | .nil => True
  | .node l x bf r => P l x bf r ∧ EveryNode P l ∧ EveryNode P r

/-- The comparator contract of §5 of the specification: return values have
the meaning of `strcmp` and form a total ordering.  `flip` says the sign
flips when the arguments swap; `le_trans` says non-positive comparisons
compose. -/
structure LawfulCmp (cmp : α → α → Int) : Prop where
  flip : ∀ a b, cmp a b < 0 ↔ cmp b a > 0
  le_trans : ∀ a b c, cmp a b ≤ 0 → cmp b c ≤ 0 → cmp a c ≤ 0

/-- The integer comparator used for concrete witnesses. -/
def icmp : Int → Int → Int := fun a b => a - b

/-- A path that only descends through present nodes (its endpoint may be
`nil`: the empty slot one past a leaf). -/
def IsPath : Node α → List Dir → Prop
  | _, [] => True
  | .nil, _ :: _ => False
  | .node l _ _ _, Dir.l :: p => IsPath l p
  | .node _ _ _ r, Dir.r :: p => IsPath r p

/-- The balance factor of the node at a path (0 for `nil`). -/
def bfAt (t : Node α) (p : List Dir) : Int :=
  match subtreeAt t p with
  | .nil => 0
  | .node _ _ bf _ => bf

/-- The payload of the node at a path. -/
def dataAt (t : Node α) (p : List Dir) : Option α :=
  match subtreeAt t p with
  | .nil => none
  | .node _ x _ _ => some x

/-- The tree produced by the shared absent-key branch of `AvlTree_insert`
and `AvlTree_get_or_insert`: link a fresh node `b` into the empty slot found
by `find_node_or_parent`, then retrace/rotate at the recorded rotate root
(if any). -/
def attachRoot (cmp : β → α → Int) (key : β) (b : α) (root : Node α) : Node α :=
  let ret := find_node_or_parent cmp key root
  let root1 := replaceAt root ret.path (.node .nil b 0 .nil)
  match ret.rotate_path with
  | none => root1
  | some rp => replaceAt root1 rp (rebalance (subtreeAt root1 rp) ret.trail)

/-- The comparisons performed along a root-to-slot descent: before every
step, the comparator placed the key strictly on the side that was taken. -/
def DescentOk (cmp : β → α → Int) (key : β) (root : Node α) (path : List Dir) : Prop :=
  ∀ p d, p ++ [d] <+: path →
    ∃ nl nx nbf nr, subtreeAt root p = Node.node nl nx nbf nr ∧
      (d = Dir.l → cmp key nx < 0) ∧ (d = Dir.r → 0 < cmp key nx)

/-- Payloads appearing before the hole in the tree rebuilt from a crumb
trail. -/
def ctxPre : List (Crumb α) → List α
  | [] => []
  | .cl _ _ _ :: cs => ctxPre cs
  | .cr l x _ :: cs => ctxPre cs ++ (inorder l ++ [x])

/-- Payloads appearing after the hole in the tree rebuilt from a crumb
trail. -/
def ctxPost : List (Crumb α) → List α
  | [] => []
  | .cl x _ r :: cs => (x :: inorder r) ++ ctxPost cs
  | .cr _ _ _ :: cs => ctxPost cs

/-- The height of the whole tree rebuilt from a crumb trail, as a function
of the height of the subtree sitting in the hole. -/
def ctxHeight : List (Crumb α) → Nat → Nat
  | [], h => h
  | .cl _ _ r :: cs, h => ctxHeight cs (max h (height r) + 1)
  | .cr l _ _ :: cs, h => ctxHeight cs (max (height l) h + 1)

/-- Validity of a deletion-retrace context for a hole whose subtree
originally had height `h`: each crumb's stored balance factor is correct
for that original height, lies in range, and its sibling subtree satisfies
the AVL invariant. -/
def CtxAvl : List (Crumb α) → Nat → Prop
  | [], _ => True
  | .cl _ bf r :: cs, h =>
    bf = (height r : Int) - h ∧ bf.natAbs ≤ 1 ∧ Avl r ∧
      CtxAvl cs (max h (height r) + 1)
  | .cr l _ bf :: cs, h =>
    bf = (h : Int) - height l ∧ bf.natAbs ≤ 1 ∧ Avl l ∧
      CtxAvl cs (max (height l) h + 1)

/-- Quiescent states reachable from a freshly initialized tree by the
mutating operations, all driven by the comparator the tree was built with:
`insert` with an arbitrary node, `get_or_insert` whose factory honours the
documented contract (its node compares equal to the key), and `remove`
(restricted to executions with defined behavior). -/
inductive Reaches (cmp : α → α → Int) : AvlTree α → Prop where
  | base : Reaches cmp AvlTree_new
  | ins (t : AvlTree α) (a : α) :
      Reaches cmp t → Reaches cmp (AvlTree_insert cmp t a).tree
  | goi (t : AvlTree α) (k : α) (fac : Unit → α) :
      Reaches cmp t → cmp k (fac ()) = 0 →
      Reaches cmp (AvlTree_get_or_insert cmp t k fac).tree
  | rem (t : AvlTree α) (k : α) (res : RemoveRet α) :
      Reaches cmp t → AvlTree_remove cmp t k = some res → Reaches cmp res.tree

/-- Removing a list of keys one at a time, collecting the evicted payloads
in order; `none` if any step runs into the undefined behavior of removing
from an empty tree. -/
def removeAll (cmp : α → α → Int) : AvlTree α → List α → Option (AvlTree α × List α)
  | t, [] => some (t, [])
  | t, k :: ks =>
    match AvlTree_remove cmp t k with
    | none => none
    | some r =>
      match removeAll cmp r.tree ks with
      | none => none
      | some (t2, ev) =>
        some (t2, (match r.removed with | .nil => [] | .node _ d _ _ => [d]) ++ ev)

/-- `u` arises from `t` by exactly one rotation at the root: a single left
or right rotation, or a double (left-right or right-left) rotation, with
arbitrary balance-factor bookkeeping. -/
def OneRotation (t u : Node α) : Prop :=
  (∃ a x b y c bf1 bf2 bf3 bf4,
    t = .node a x bf1 (.node b y bf2 c) ∧ u = .node (.node a x bf3 b) y bf4 c) ∨
  (∃ a x b y c bf1 bf2 bf3 bf4,
    t = .node (.node a x bf1 b) y bf2 c ∧ u = .node a x bf3 (.node b y bf4 c)) ∨
  (∃ a x b z c y d bf1 bf2 bf3 bf4 bf5 bf6,
    t = .node a x bf1 (.node (.node b z bf2 c) y bf3 d) ∧
      u = .node (.node a x bf4 b) z bf5 (.node c y bf6 d)) ∨
  (∃ a x b z c y d bf1 bf2 bf3 bf4 bf5 bf6,
    t = .node (.node a x bf1 (.node b z bf2 c)) y bf3 d ∧
      u = .node (.node a x bf4 b) z bf5 (.node c y bf6 d))

instance instDecidableAvl : (t : Node α) → Decidable (Avl t)
  | .nil => .isTrue trivial
  | .node l _ bf r =>
    have : Decidable (Avl l) := instDecidableAvl l
    have : Decidable (Avl r) := instDecidableAvl r
    decidable_of_iff
      (Avl l ∧ Avl r ∧ bf = (height r : Int) - (height l : Int) ∧ bf.natAbs ≤ 1)
      Iff.rfl

instance instDecidableOrdered (cmp : α → α → Int) :
    (t : Node α) → Decidable (Ordered cmp t)
  | .nil => .isTrue trivial
  | .node l _ _ r =>
    have : Decidable (Ordered cmp l) := instDecidableOrdered cmp l
    have : Decidable (Ordered cmp r) := instDecidableOrdered cmp r
    decidable_of_iff
      (Ordered cmp l ∧ Ordered cmp r ∧
        (∀ b ∈ inorder l, cmp b _ < 0) ∧ (∀ b ∈ inorder r, cmp _ b < 0))
      Iff.rfl

/-- The tree with every payload erased: node shape plus balance factors. -/
def shapeBf : Node α → Node Unit
  | .nil => .nil
  | .node l _ bf r => .node (shapeBf l) () bf (shapeBf r)

/-! ## The early string utility (`src/internal/str.c`) -/

/-- `struct StringView` from the early draft: a borrowed pointer plus a
length. -/
structure StringView (γ : Type) where
  data : List γ
  length : Nat

/-- The memory behavior of one `alloc_and_copy` call: how many bytes were
allocated and which buffer indices were stored to. -/
structure AllocWrites where
  alloc_bytes : Nat
  written : List Nat
deriving Repr

/-- `alloc_and_copy` from `src/src/internal/str.c:48` (identical twin in
`src/avl_tree.c:76`): `malloc(sizeof(char) * (source.length + 1))`, then
`memcpy` of `source.length` bytes into indices `0 .. source.length - 1`,
then the store `new_str[source.length + 1] = 0`. -/
def alloc_and_copy (source : StringView γ) : AllocWrites :=
  ⟨source.length + 1, List.range source.length ++ [source.length + 1]⟩

/-! ## Basic lemmas: traversal and path algebra -/

theorem inorder_adjustPath (p : List Dir) :
    ∀ t : Node α, inorder (adjustPath t p) = inorder t := by
  induction p with
  | nil => intro t; cases t <;> rfl
  | cons d p ih =>
    intro t
    cases t with
    | nil => rfl
    | node l x bf r => cases d <;> simp [adjustPath, inorder, ih]

theorem inorder_rotate (t : Node α) : inorder (rotate t) = inorder t := by
  unfold rotate
  split
  · rfl
  · rename_i l x bf r
    split_ifs with h1 h2
    · cases r with
      | nil => rfl
      | node ml mx mbf mr =>
        by_cases hm : mbf = -1
        · cases ml with
          | nil => simp [hm]
          | node bl bx bbf br => simp [hm, inorder]
        · simp [hm, inorder]
    · cases l with
      | nil => rfl
      | node ml mx mbf mr =>
        by_cases hm : mbf = 1
        · cases mr with
          | nil => simp [hm]
          | node bl bx bbf br => simp [hm, inorder]
        · simp [hm, inorder]
    · rfl

theorem plug_inorder (cs : List (Crumb α)) :
    ∀ t, inorder (plug cs t) = ctxPre cs ++ inorder t ++ ctxPost cs := by
  induction cs with
  | nil => intro t; simp [plug, ctxPre, ctxPost]
  | cons c cs ih =>
    intro t
    cases c with
    | cl x bf r => simp [plug, ctxPre, ctxPost, ih, inorder]
    | cr l x bf => simp [plug, ctxPre, ctxPost, ih, inorder]

theorem retrace_inorder (cs : List (Crumb α)) :
    ∀ t : Node α, inorder (update_balance_factors_and_rebalance cs t) = inorder (plug cs t) := by
  induction cs with
  | nil => intro t; rfl
  | cons c cs ih =>
    intro t
    cases c with
    | cl x bf r =>
      simp only [update_balance_factors_and_rebalance]
      repeat' split
      all_goals simp_all [plug_inorder, inorder, ctxPre, ctxPost]
    | cr l x bf =>
      simp only [update_balance_factors_and_rebalance]
      repeat' split
      all_goals simp_all [plug_inorder, inorder, ctxPre, ctxPost]

theorem subtreeAt_nil_root (q : List Dir) : subtreeAt (.nil : Node α) q = .nil := by
  cases q <;> rfl

@[simp]
theorem subtreeAt_nil_path (t : Node α) : subtreeAt t [] = t := by
  cases t <;> rfl

@[simp]
theorem replaceAt_nil_path (t s : Node α) : replaceAt t [] s = s := by
  cases t <;> rfl

theorem replaceAt_nil_root (q : List Dir) (hq : q ≠ []) (s : Node α) :
    replaceAt .nil q s = .nil := by
  cases q with
  | nil => exact absurd rfl hq
  | cons d p => rfl

theorem subtreeAt_append (p : List Dir) :
    ∀ (q : List Dir) (t : Node α), subtreeAt t (p ++ q) = subtreeAt (subtreeAt t p) q := by
  induction p with
  | nil => intro q t; simp
  | cons d p ih =>
    intro q t
    cases t with
    | nil => simp [subtreeAt, subtreeAt_nil_root]
    | node l x bf r => cases d <;> simp [subtreeAt, ih]

theorem replaceAt_append (p : List Dir) :
    ∀ (q : List Dir) (t s : Node α),
      replaceAt t (p ++ q) s = replaceAt t p (replaceAt (subtreeAt t p) q s) := by
  induction p with
  | nil => intro q t s; simp
  | cons d p ih =>
    intro q t s
    cases t with
    | nil =>
      simp only [subtreeAt]
      rw [replaceAt_nil_root _ (by simp), replaceAt_nil_root _ (by simp)]
    | node l x bf r => cases d <;> simp [replaceAt, subtreeAt, ih]

theorem subtreeAt_replaceAt_self (p : List Dir) :
    ∀ (t s : Node α), IsPath t p → subtreeAt (replaceAt t p s) p = s := by
  induction p with
  | nil => intro t s _; simp
  | cons d p ih =>
    intro t s hp
    cases t with
    | nil => exact absurd hp (by cases d <;> simp [IsPath])
    | node l x bf r =>
      cases d
      · exact ih l s hp
      · exact ih r s hp

theorem replaceAt_replaceAt (p : List Dir) :
    ∀ (t u v : Node α), replaceAt (replaceAt t p u) p v = replaceAt t p v := by
  induction p with
  | nil => intro t u v; simp
  | cons d p ih =>
    intro t u v
    cases t with
    | nil => rw [replaceAt_nil_root _ (by simp), replaceAt_nil_root _ (by simp)]
    | node l x bf r => cases d <;> simp [replaceAt, ih]

theorem inorder_replaceAt_decomp (p : List Dir) :
    ∀ (t : Node α), IsPath t p →
      ∃ pre post, (∀ s, inorder (replaceAt t p s) = pre ++ inorder s ++ post) ∧
        inorder t = pre ++ inorder (subtreeAt t p) ++ post := by
  induction p with
  | nil => intro t _; exact ⟨[], [], fun s => by simp [replaceAt], by simp [subtreeAt]⟩
  | cons d p ih =>
    intro t hp
    cases t with
    | nil => exact absurd hp (by cases d <;> simp [IsPath])
    | node l x bf r =>
      cases d
      · obtain ⟨pre, post, hrep, hdec⟩ := ih l hp
        exact ⟨pre, post ++ x :: inorder r,
          fun s => by simp [replaceAt, inorder, hrep s], by simp [inorder, hdec, subtreeAt]⟩
      · obtain ⟨pre, post, hrep, hdec⟩ := ih r hp
        exact ⟨inorder l ++ x :: pre, post,
          fun s => by simp [replaceAt, inorder, hrep s], by simp [inorder, hdec, subtreeAt]⟩

theorem height_eq_zero_iff (t : Node α) : height t = 0 ↔ t = .nil := by
  cases t <;> simp [height]

/-! ## Comparator laws -/

theorem LawfulCmp.self_eq {cmp : α → α → Int} (h : LawfulCmp cmp) (a : α) :
    cmp a a = 0 := by
  have := h.flip a a
  omega

theorem LawfulCmp.eq_symm {cmp : α → α → Int} (h : LawfulCmp cmp) {a b : α}
    (hab : cmp a b = 0) : cmp b a = 0 := by
  have h1 := h.flip a b
  have h2 := h.flip b a
  omega

theorem LawfulCmp.lt_trans {cmp : α → α → Int} (h : LawfulCmp cmp) {a b c : α}
    (h1 : cmp a b < 0) (h2 : cmp b c < 0) : cmp a c < 0 := by
  have h3 := h.le_trans a b c (le_of_lt h1) (le_of_lt h2)
  rcases lt_or_eq_of_le h3 with h4 | h4
  · exact h4
  · exfalso
    have h5 := h.eq_symm h4
    have h6 := h.le_trans b c a (le_of_lt h2) (le_of_eq h5)
    have h7 := (h.flip a b).mp h1
    omega

theorem LawfulCmp.lt_of_lt_of_eq {cmp : α → α → Int} (h : LawfulCmp cmp) {a b c : α}
    (h1 : cmp a b < 0) (h2 : cmp b c = 0) : cmp a c < 0 := by
  have h3 := h.le_trans a b c (le_of_lt h1) (le_of_eq h2)
  rcases lt_or_eq_of_le h3 with h4 | h4
  · exact h4
  · exfalso
    have h5 := h.eq_symm h4
    have h7 := h.le_trans b c a (le_of_eq h2) (le_of_eq h5)
    have h8 := (h.flip a b).mp h1
    omega

theorem LawfulCmp.lt_of_eq_of_lt {cmp : α → α → Int} (h : LawfulCmp cmp) {a b c : α}
    (h1 : cmp a b = 0) (h2 : cmp b c < 0) : cmp a c < 0 := by
  have h3 := h.le_trans a b c (le_of_eq h1) (le_of_lt h2)
  rcases lt_or_eq_of_le h3 with h4 | h4
  · exact h4
  · exfalso
    have h5 := h.eq_symm h4
    have h6 := h.le_trans c a b (le_of_eq h5) (le_of_eq h1)
    have h7 := (h.flip b c).mp h2
    omega

theorem lawful_icmp : LawfulCmp icmp := by
  constructor
  · intro a b
    simp only [icmp]
    omega
  · intro a b c h1 h2
    simp only [icmp] at h1 h2 ⊢
    omega

/-! ## Ordered and Pairwise -/

theorem Ordered.pairwise {cmp : α → α → Int} (h : LawfulCmp cmp) :
    ∀ t : Node α, Ordered cmp t → (inorder t).Pairwise (fun a b => cmp a b < 0) := by
  intro t
  induction t with
  | nil => intro _; simp [inorder]
  | node l x bf r ihl ihr =>
    intro ht
    obtain ⟨hl, hr, hbl, hbr⟩ := ht
    simp only [inorder]
    rw [List.pairwise_append]
    refine ⟨ihl hl, ?_, ?_⟩
    · rw [List.pairwise_cons]
      exact ⟨hbr, ihr hr⟩
    · intro a ha b hb
      rcases List.mem_cons.mp hb with rfl | hb
      · exact hbl a ha
      · exact h.lt_trans (hbl a ha) (hbr b hb)

theorem Pairwise.ordered {cmp : α → α → Int} :
    ∀ t : Node α, (inorder t).Pairwise (fun a b => cmp a b < 0) → Ordered cmp t := by
  intro t
  induction t with
  | nil => intro _; trivial
  | node l x bf r ihl ihr =>
    intro ht
    simp only [inorder] at ht
    rw [List.pairwise_append] at ht
    obtain ⟨h1, h2, h3⟩ := ht
    rw [List.pairwise_cons] at h2
    exact ⟨ihl h1, ihr h2.2, fun b hb => h3 b hb x (List.mem_cons_self _ _),
      fun b hb => h2.1 b hb⟩

/-! ## Search correctness -/

theorem find_eq_node {cmp : β → α → Int} {key : β} :
    ∀ {t l : Node α} {x : α} {bf : Int} {r : Node α},
      find cmp key t = .node l x bf r → cmp key x = 0 ∧ x ∈ inorder t := by
  intro t
  induction t with
  | nil => intro l x bf r hf; simp [find] at hf
  | node tl tx tbf tr ihl ihr =>
    intro l x bf r hf
    simp only [find] at hf
    split_ifs at hf with h1 h2
    · obtain ⟨-, rfl, -, -⟩ := Node.node.inj hf
      exact ⟨h1, by simp [inorder]⟩
    · obtain ⟨hc, hm⟩ := ihl hf
      exact ⟨hc, by simp [inorder, hm]⟩
    · obtain ⟨hc, hm⟩ := ihr hf
      exact ⟨hc, by simp [inorder, hm]⟩

theorem find_ne_nil_of_mem {cmp : α → α → Int} (h : LawfulCmp cmp) {key : α} :
    ∀ {t : Node α}, Ordered cmp t → ∀ x ∈ inorder t, cmp key x = 0 →
      find cmp key t ≠ .nil := by
  intro t
  induction t with
  | nil => intro _ x hx; simp [inorder] at hx
  | node tl tx tbf tr ihl ihr =>
    intro ht x hx hc
    obtain ⟨hl, hr, hbl, hbr⟩ := ht
    simp only [find]
    split_ifs with h1 h2
    · simp
    · -- key < tx: x must be in the left subtree
      rcases (by simpa [inorder] using hx :
          x ∈ inorder tl ∨ x = tx ∨ x ∈ inorder tr) with hm | rfl | hm
      · exact ihl hl x hm hc
      · omega
      · exfalso
        have h3 := h.lt_trans h2 (hbr x hm)
        omega
    · rcases (by simpa [inorder] using hx :
          x ∈ inorder tl ∨ x = tx ∨ x ∈ inorder tr) with hm | rfl | hm
      · exfalso
        have h3 := h.lt_of_eq_of_lt hc (hbl x hm)
        omega
      · omega
      · exact ihr hr x hm hc

/-! ## Clearing: the flattening loop deletes exactly the in-order traversal -/

theorem clearLoop_eq_inorder : ∀ t : Node α, clearLoop t = inorder t := by
  intro t
  induction t using clearLoop.induct <;> simp_all [clearLoop, inorder]

/-! ## Deletion context lemmas -/

theorem ctxHeight_append (A : List (Crumb α)) :
    ∀ (B : List (Crumb α)) (h : Nat), ctxHeight (A ++ B) h = ctxHeight B (ctxHeight A h) := by
  induction A with
  | nil => intro B h; rfl
  | cons c A ih => intro B h; cases c <;> simp [ctxHeight, ih]

theorem CtxAvl_append (A : List (Crumb α)) :
    ∀ (B : List (Crumb α)) (h : Nat),
      CtxAvl A h → CtxAvl B (ctxHeight A h) → CtxAvl (A ++ B) h := by
  induction A with
  | nil => intro B h _ hB; exact hB
  | cons c A ih =>
    intro B h hA hB
    cases c with
    | cl x bf r =>
      obtain ⟨h1, h2, h3, h4⟩ := hA
      exact ⟨h1, h2, h3, ih B _ h4 hB⟩
    | cr l x bf =>
      obtain ⟨h1, h2, h3, h4⟩ := hA
      exact ⟨h1, h2, h3, ih B _ h4 hB⟩

theorem plug_avl (cs : List (Crumb α)) :
    ∀ (u : Node α) (h : Nat), CtxAvl cs h → Avl u → height u = h →
      Avl (plug cs u) := by
  induction cs with
  | nil => intro u h _ hu _; exact hu
  | cons c cs ih =>
    intro u h hc hu hh
    cases c with
    | cl x bf r =>
      obtain ⟨h1, h2, h3, h4⟩ := hc
      refine ih (.node u x bf r) _ h4 ⟨hu, h3, by omega, h2⟩ ?_
      simp [height, hh]
    | cr l x bf =>
      obtain ⟨h1, h2, h3, h4⟩ := hc
      refine ih (.node l x bf u) _ h4 ⟨h3, hu, by omega, h2⟩ ?_
      simp [height, hh]

theorem searchCrumbs_spec (cmp : β → α → Int) (key : β) :
    ∀ (t : Node α) (cs₀ : List (Crumb α)) (fl : Node α) (fx : α) (fbf : Int)
      (fr : Node α) (cs : List (Crumb α)),
      searchCrumbs cmp key t cs₀ = some ((fl, fx, fbf, fr), cs) →
      plug cs (.node fl fx fbf fr) = plug cs₀ t ∧ cmp key fx = 0 := by
  intro t
  induction t with
  | nil => intro cs₀ fl fx fbf fr cs hs; simp [searchCrumbs] at hs
  | node tl tx tbf tr ihl ihr =>
    intro cs₀ fl fx fbf fr cs hs
    simp only [searchCrumbs] at hs
    split_ifs at hs with h1 h2
    · obtain ⟨⟨rfl, rfl, rfl, rfl⟩, rfl⟩ :
        (tl = fl ∧ tx = fx ∧ tbf = fbf ∧ tr = fr) ∧ cs₀ = cs := by
        have := Option.some.inj hs
        exact ⟨⟨congrArg (fun z => z.1.1) this, congrArg (fun z => z.1.2.1) this,
          congrArg (fun z => z.1.2.2.1) this, congrArg (fun z => z.1.2.2.2) this⟩,
          congrArg Prod.snd this⟩
      exact ⟨rfl, h1⟩
    · exact ihl _ _ _ _ _ _ hs
    · exact ihr _ _ _ _ _ _ hs

theorem searchCrumbs_ctx (cmp : β → α → Int) (key : β) :
    ∀ (t : Node α) (cs₀ : List (Crumb α)) (fl : Node α) (fx : α) (fbf : Int)
      (fr : Node α) (cs : List (Crumb α)),
      searchCrumbs cmp key t cs₀ = some ((fl, fx, fbf, fr), cs) →
      Avl t → CtxAvl cs₀ (height t) →
      Avl (.node fl fx fbf fr) ∧ CtxAvl cs (height (.node fl fx fbf fr)) ∧
        ctxHeight cs (height (.node fl fx fbf fr)) = ctxHeight cs₀ (height t) := by
  intro t
  induction t with
  | nil => intro cs₀ fl fx fbf fr cs hs; simp [searchCrumbs] at hs
  | node tl tx tbf tr ihl ihr =>
    intro cs₀ fl fx fbf fr cs hs havl hctx
    obtain ⟨hal, har, hbf, hrange⟩ := havl
    simp only [searchCrumbs] at hs
    split_ifs at hs with h1 h2
    · obtain ⟨⟨rfl, rfl, rfl, rfl⟩, rfl⟩ :
        (tl = fl ∧ tx = fx ∧ tbf = fbf ∧ tr = fr) ∧ cs₀ = cs := by
        have := Option.some.inj hs
        exact ⟨⟨congrArg (fun z => z.1.1) this, congrArg (fun z => z.1.2.1) this,
          congrArg (fun z => z.1.2.2.1) this, congrArg (fun z => z.1.2.2.2) this⟩,
          congrArg Prod.snd this⟩
      exact ⟨⟨hal, har, hbf, hrange⟩, hctx, rfl⟩
    · refine ihl _ _ _ _ _ _ hs hal ?_
      refine ⟨hbf, hrange, har, ?_⟩
      simpa [height, ctxHeight] using hctx
    · refine ihr _ _ _ _ _ _ hs har ?_
      refine ⟨hbf, hrange, hal, ?_⟩
      simpa [height, ctxHeight] using hctx

theorem plug_append (A : List (Crumb α)) :
    ∀ (B : List (Crumb α)) (t : Node α), plug (A ++ B) t = plug B (plug A t) := by
  induction A with
  | nil => intro B t; rfl
  | cons c A ih => intro B t; cases c <;> simp [plug, ih]

theorem ctxPre_append (A : List (Crumb α)) :
    ∀ B : List (Crumb α), ctxPre (A ++ B) = ctxPre B ++ ctxPre A := by
  induction A with
  | nil => intro B; simp [ctxPre]
  | cons c A ih => intro B; cases c <;> simp [ctxPre, ih]

theorem ctxPost_append (A : List (Crumb α)) :
    ∀ B : List (Crumb α), ctxPost (A ++ B) = ctxPost A ++ ctxPost B := by
  induction A with
  | nil => intro B; simp [ctxPost]
  | cons c A ih => intro B; cases c <;> simp [ctxPost, ih]

theorem splitMin_inorder :
    ∀ (rl : Node α) (rx : α) (rbf : Int) (rr : Node α),
      inorder (.node rl rx rbf rr) =
        (splitMin rl rx rbf rr).2.1 ::
          inorder (plug (splitMin rl rx rbf rr).1 (splitMin rl rx rbf rr).2.2) := by
  intro rl
  induction rl with
  | nil => intro rx rbf rr; simp [splitMin, inorder, plug]
  | node ll lx lbf lr ihl _ =>
    intro rx rbf rr
    simp only [splitMin, plug_append, plug]
    rw [show inorder (.node (.node ll lx lbf lr) rx rbf rr) =
      inorder (.node ll lx lbf lr) ++ rx :: inorder rr from rfl]
    rw [ihl lx lbf lr]
    simp [inorder]

theorem splitMin_ctx :
    ∀ (rl : Node α) (rx : α) (rbf : Int) (rr : Node α),
      Avl (.node rl rx rbf rr) →
      Avl (splitMin rl rx rbf rr).2.2 ∧
      CtxAvl (splitMin rl rx rbf rr).1 (height (splitMin rl rx rbf rr).2.2 + 1) ∧
      ctxHeight (splitMin rl rx rbf rr).1 (height (splitMin rl rx rbf rr).2.2 + 1) =
        height (.node rl rx rbf rr) := by
  intro rl
  induction rl with
  | nil =>
    intro rx rbf rr h
    obtain ⟨-, har, hbf, hrange⟩ := h
    exact ⟨har, trivial, by simp [splitMin, ctxHeight, height]⟩
  | node ll lx lbf lr ihl _ =>
    intro rx rbf rr h
    obtain ⟨hal, har, hbf, hrange⟩ := h
    obtain ⟨ih1, ih2, ih3⟩ := ihl lx lbf lr hal
    simp only [splitMin]
    refine ⟨ih1, ?_, ?_⟩
    · refine CtxAvl_append _ _ _ ih2 ?_
      rw [ih3]
      exact ⟨hbf, hrange, har, trivial⟩
    · rw [ctxHeight_append, ih3]
      simp [ctxHeight, height]

set_option maxHeartbeats 1000000 in
/-- The deletion retrace loop restores the AVL invariant: starting from a
valid context whose hole lost exactly one level of height, the rebuilt tree
is an AVL tree. -/
theorem retrace_avl (cs : List (Crumb α)) :
    ∀ (u : Node α) (h : Nat), CtxAvl cs h → Avl u → height u + 1 = h →
      Avl (update_balance_factors_and_rebalance cs u) := by
  induction cs with
  | nil => intro u h _ hu _; exact hu
  | cons c cs ih =>
    intro u h hc hu hh
    cases c with
    | cl x bf r =>
      obtain ⟨hbf, hrange, havlr, hctx⟩ := hc
      simp only [update_balance_factors_and_rebalance]
      split_ifs with h1 h2
      · -- new balance factor +1: height unchanged, stop
        have e_r : height r = h := by omega
        refine plug_avl cs _ _ hctx ⟨hu, havlr, by omega, by omega⟩ ?_
        simp [height]
        omega
      · -- new balance factor +2: rotate, sibling r is the taller side
        cases r with
        | nil => exfalso; simp [height] at hbf; omega
        | node ml mx mbf mr =>
          obtain ⟨haml, hamr, hmbf, hmrange⟩ := havlr
          have e_r : height (Node.node ml mx mbf mr) = h + 1 := by omega
          have e_max : max (height ml) (height mr) + 1 = h + 1 := by
            simpa [height] using e_r
          dsimp only
          by_cases hm1 : mbf = -1
          · rw [if_pos hm1]
            have e_ml : height ml = h := by omega
            cases ml with
            | nil => exfalso; simp [height] at e_ml; omega
            | node bl bx bbf br =>
              obtain ⟨habl, habr, hbbf, hbrange⟩ := haml
              have e_mlx : max (height bl) (height br) + 1 = h := by
                simpa [height] using e_ml
              rcases (show bbf = -1 ∨ bbf = 0 ∨ bbf = 1 by omega) with rfl | rfl | rfl <;>
                simp only [show ((-1 : Int) = 1) = False by simp,
                  show ((0 : Int) = 1) = False by simp, show ((1 : Int) = 1) = True by simp,
                  show ((-1 : Int) = -1) = True by simp, show ((0 : Int) = -1) = False by simp,
                  show ((1 : Int) = -1) = False by simp, if_true, if_false] <;>
                refine ih _ (max h (height (Node.node (Node.node bl bx _ br) mx mbf mr)) + 1)
                  hctx ⟨⟨hu, habl, by omega, by omega⟩, ⟨habr, hamr, by omega, by omega⟩,
                    by simp [height]; omega, by simp⟩ ?_ <;>
                simp [height] <;> omega
          · -- single left rotation
            rw [if_neg hm1]
            by_cases hm0 : mbf = 0
            · rw [if_pos hm0]
              have e_eq : height ml = h ∧ height mr = h := by omega
              refine plug_avl cs _ _ hctx
                ⟨⟨hu, haml, by omega, by omega⟩, hamr, by simp [height]; omega, by simp⟩ ?_
              simp [height]
              omega
            · rw [if_neg hm0]
              have hm2 : mbf = 1 := by omega
              have e_eq : height mr = h ∧ height ml + 1 = h := by omega
              refine ih _ (max h (height (Node.node ml mx mbf mr)) + 1) hctx
                ⟨⟨hu, haml, by omega, by omega⟩, hamr, by simp [height]; omega, by simp⟩ ?_
              simp [height]
              omega
      · -- new balance factor 0: height shrank, continue
        have h0 : bf + 1 = 0 := by omega
        have e_r : height r + 1 = h := by omega
        refine ih _ (max h (height r) + 1) hctx
          ⟨hu, havlr, by omega, by omega⟩ ?_
        simp [height]
        omega
    | cr l x bf =>
      obtain ⟨hbf, hrange, havll, hctx⟩ := hc
      simp only [update_balance_factors_and_rebalance]
      split_ifs with h1 h2
      · -- new balance factor -1: height unchanged, stop
        have e_l : height l = h := by omega
        refine plug_avl cs _ _ hctx ⟨havll, hu, by omega, by omega⟩ ?_
        simp [height]
        omega
      · -- new balance factor -2: rotate, sibling l is the taller side
        cases l with
        | nil => exfalso; simp [height] at hbf; omega
        | node ml mx mbf mr =>
          obtain ⟨haml, hamr, hmbf, hmrange⟩ := havll
          have e_l : height (Node.node ml mx mbf mr) = h + 1 := by omega
          have e_max : max (height ml) (height mr) + 1 = h + 1 := by
            simpa [height] using e_l
          dsimp only
          by_cases hm1 : mbf = 1
          · rw [if_pos hm1]
            have e_mr : height mr = h := by omega
            cases mr with
            | nil => exfalso; simp [height] at e_mr; omega
            | node bl bx bbf br =>
              obtain ⟨habl, habr, hbbf, hbrange⟩ := hamr
              have e_mrx : max (height bl) (height br) + 1 = h := by
                simpa [height] using e_mr
              rcases (show bbf = -1 ∨ bbf = 0 ∨ bbf = 1 by omega) with rfl | rfl | rfl <;>
                simp only [show ((-1 : Int) = 1) = False by simp,
                  show ((0 : Int) = 1) = False by simp, show ((1 : Int) = 1) = True by simp,
                  show ((-1 : Int) = -1) = True by simp, show ((0 : Int) = -1) = False by simp,
                  show ((1 : Int) = -1) = False by simp, if_true, if_false] <;>
                refine ih _ (max (height (Node.node ml mx mbf (Node.node bl bx _ br))) h + 1)
                  hctx ⟨⟨haml, habl, by omega, by omega⟩, ⟨habr, hu, by omega, by omega⟩,
                    by simp [height]; omega, by simp⟩ ?_ <;>
                simp [height] <;> omega
          · -- single right rotation
            rw [if_neg hm1]
            by_cases hm0 : mbf = 0
            · rw [if_pos hm0]
              have e_eq : height ml = h ∧ height mr = h := by omega
              refine plug_avl cs _ _ hctx
                ⟨haml, ⟨hamr, hu, by omega, by omega⟩, by simp [height]; omega, by simp⟩ ?_
              simp [height]
              omega
            · rw [if_neg hm0]
              have hm2 : mbf = -1 := by omega
              have e_eq : height ml = h ∧ height mr + 1 = h := by omega
              refine ih _ (max (height (Node.node ml mx mbf mr)) h + 1) hctx
                ⟨haml, ⟨hamr, hu, by omega, by omega⟩, by simp [height]; omega, by simp⟩ ?_
              simp [height]
              omega
      · -- new balance factor 0: height shrank, continue
        have h0 : bf - 1 = 0 := by omega
        have e_l : height l + 1 = h := by omega
        refine ih _ (max (height l) h + 1) hctx
          ⟨havll, hu, by omega, by omega⟩ ?_
        simp [height]
        omega

/-! ## Removal: in-order effect and invariant preservation -/

theorem remove_node_inorder (fl : Node α) (fx : α) (fbf : Int) (fr : Node α)
    (cs : List (Crumb α)) :
    inorder (remove_node fl fx fbf fr cs) =
      ctxPre cs ++ (inorder fl ++ inorder fr) ++ ctxPost cs := by
  cases fl with
  | nil =>
    cases fr with
    | nil => simp [remove_node, retrace_inorder, plug_inorder, inorder]
    | node a b c d => simp [remove_node, retrace_inorder, plug_inorder, inorder]
  | node a b c d =>
    cases fr with
    | nil => simp [remove_node, retrace_inorder, plug_inorder, inorder]
    | node rl rx rbf rr =>
      simp only [remove_node, retrace_inorder, plug_inorder]
      rw [show ((splitMin rl rx rbf rr).1 ++ .cr (Node.node a b c d) (splitMin rl rx rbf rr).2.1 fbf :: cs)
          = ((splitMin rl rx rbf rr).1 ++ [Crumb.cr (Node.node a b c d) (splitMin rl rx rbf rr).2.1 fbf]) ++ cs
        from by simp]
      rw [ctxPre_append, ctxPost_append, ctxPre_append, ctxPost_append]
      have hmin := splitMin_inorder rl rx rbf rr
      rw [plug_inorder] at hmin
      simp only [ctxPre, ctxPost, inorder] at *
      rw [hmin]
      simp

theorem remove_node_avl (fl : Node α) (fx : α) (fbf : Int) (fr : Node α)
    (cs : List (Crumb α))
    (havl : Avl (.node fl fx fbf fr))
    (hctx : CtxAvl cs (height (.node fl fx fbf fr))) :
    Avl (remove_node fl fx fbf fr cs) := by
  obtain ⟨hal, har, hbf, hrange⟩ := havl
  cases fl with
  | nil =>
    cases fr with
    | nil =>
      refine retrace_avl cs .nil 1 ?_ trivial (by simp [height])
      simpa [height] using hctx
    | node a b c d =>
      have h1 : height (Node.node a b c d) = 1 := by
        simp [height] at hbf hrange ⊢
        omega
      refine retrace_avl cs (.node a b c d) 2 ?_ har (by omega)
      have h2 : height (Node.nil.node fx fbf (Node.node a b c d)) = 2 := by
        simp [height] at h1 ⊢
        omega
      rw [h2] at hctx
      exact hctx
  | node a b c d =>
    cases fr with
    | nil =>
      have h1 : height (Node.node a b c d) = 1 := by
        simp [height] at hbf hrange ⊢
        omega
      refine retrace_avl cs (.node a b c d) 2 ?_ hal (by omega)
      have h2 : height ((Node.node a b c d).node fx fbf Node.nil) = 2 := by
        simp [height] at h1 ⊢
        omega
      rw [h2] at hctx
      exact hctx
    | node rl rx rbf rr =>
      obtain ⟨hs_avl, hs_ctx, hs_h⟩ := splitMin_ctx rl rx rbf rr har
      simp only [remove_node]
      refine retrace_avl _ _ (height (splitMin rl rx rbf rr).2.2 + 1) ?_ hs_avl rfl
      rw [show ((splitMin rl rx rbf rr).1 ++ .cr (Node.node a b c d) (splitMin rl rx rbf rr).2.1 fbf :: cs)
          = (splitMin rl rx rbf rr).1 ++ (Crumb.cr (Node.node a b c d) (splitMin rl rx rbf rr).2.1 fbf :: cs)
        from rfl]
      refine CtxAvl_append _ _ _ hs_ctx ?_
      rw [hs_h]
      refine ⟨hbf, hrange, hal, ?_⟩
      simpa [height] using hctx

theorem AvlTree_remove_cases (cmp : β → α → Int) (t : AvlTree α) (key : β)
    (res : RemoveRet α) (hres : AvlTree_remove cmp t key = some res) :
    (res.tree = t ∧ res.removed = .nil ∧ res.deleted = [] ∧ t.root ≠ .nil ∧
      searchCrumbs cmp key t.root [] = none) ∨
    (∃ fx pre post, res.removed = .node .nil fx 0 .nil ∧ res.deleted = [] ∧
      cmp key fx = 0 ∧
      inorder t.root = pre ++ fx :: post ∧ inorder res.tree.root = pre ++ post ∧
      res.tree.len = t.len - 1 ∧
      (Avl t.root → Avl res.tree.root)) := by
  obtain ⟨root, len⟩ := t
  cases root with
  | nil => simp [AvlTree_remove] at hres
  | node a b c d =>
    simp only [AvlTree_remove] at hres
    rcases hsearch : searchCrumbs cmp key (.node a b c d) [] with - | ⟨⟨fl, fx, fbf, fr⟩, cs⟩
    · rw [hsearch] at hres
      left
      obtain rfl := Option.some.inj hres
      exact ⟨rfl, rfl, rfl, by simp, rfl⟩
    · rw [hsearch] at hres
      obtain rfl := Option.some.inj hres
      right
      obtain ⟨hplug, hcmp⟩ := searchCrumbs_spec cmp key _ _ _ _ _ _ _ hsearch
      refine ⟨fx, ctxPre cs ++ inorder fl, inorder fr ++ ctxPost cs, rfl, rfl, hcmp, ?_, ?_, rfl, ?_⟩
      · rw [show inorder (Node.node a b c d) = inorder (plug [] (.node a b c d)) from rfl,
          ← hplug, plug_inorder]
        simp [inorder]
      · rw [remove_node_inorder]
        simp
      · intro havl
        obtain ⟨hfavl, hfctx, -⟩ :=
          searchCrumbs_ctx cmp key _ _ _ _ _ _ _ hsearch havl trivial
        exact remove_node_avl _ _ _ _ _ hfavl hfctx

/-! ## Insertion: characterization of the descent loop -/

theorem concat_inj {γ : Type _} {l1 l2 : List γ} {a b : γ}
    (h : l1 ++ [a] = l2 ++ [b]) : l1 = l2 ∧ a = b := by
  have hl : l1.length = l2.length := by
    have := congrArg List.length h
    simpa using this
  exact ⟨List.append_inj_left h hl, by simpa using List.append_inj_right h hl⟩

theorem IsPath_append (p : List Dir) :
    ∀ (q : List Dir) (t : Node α),
      IsPath t (p ++ q) ↔ (IsPath t p ∧ IsPath (subtreeAt t p) q) := by
  induction p with
  | nil => intro q t; simp [IsPath]
  | cons d p ih =>
    intro q t
    cases t with
    | nil => cases d <;> simp [IsPath]
    | node l x bf r => cases d <;> simp [IsPath, subtreeAt, ih]

theorem bfAt_of_subtree {root : Node α} {p : List Dir} {l : Node α} {x : α}
    {bf : Int} {r : Node α} (h : subtreeAt root p = .node l x bf r) :
    bfAt root p = bf := by
  simp [bfAt, h]

theorem fnop_loop_spec (cmp : β → α → Int) (key : β) (root : Node α) :
    ∀ (sub : Node α) (path rpath trail : List Dir),
      sub ≠ .nil →
      subtreeAt root path = sub →
      IsPath root path →
      IsPath root rpath →
      path = rpath ++ trail →
      (∀ q, q ≠ [] → q ≠ trail → q <+: trail → bfAt root (rpath ++ q) = 0) →
      DescentOk cmp key root path →
      (rpath = [] ∨ bfAt root rpath ≠ 0) →
      (((find_node_or_parent_loop cmp key sub path rpath trail).is_node = true →
        ∃ fl fx fbf fr,
          subtreeAt root (find_node_or_parent_loop cmp key sub path rpath trail).path =
            Node.node fl fx fbf fr ∧ cmp key fx = 0 ∧
          IsPath root (find_node_or_parent_loop cmp key sub path rpath trail).path ∧
          DescentOk cmp key root (find_node_or_parent_loop cmp key sub path rpath trail).path) ∧
      ((find_node_or_parent_loop cmp key sub path rpath trail).is_node = false →
        ∃ rp, (find_node_or_parent_loop cmp key sub path rpath trail).rotate_path = some rp ∧
          (find_node_or_parent_loop cmp key sub path rpath trail).path =
            rp ++ (find_node_or_parent_loop cmp key sub path rpath trail).trail ∧
          IsPath root (find_node_or_parent_loop cmp key sub path rpath trail).path ∧
          subtreeAt root (find_node_or_parent_loop cmp key sub path rpath trail).path = .nil ∧
          IsPath root rp ∧
          (find_node_or_parent_loop cmp key sub path rpath trail).trail ≠ [] ∧
          (∀ q, q ≠ [] → q ≠ (find_node_or_parent_loop cmp key sub path rpath trail).trail →
            q <+: (find_node_or_parent_loop cmp key sub path rpath trail).trail →
            bfAt root (rp ++ q) = 0) ∧
          (rp = [] ∨ bfAt root rp ≠ 0) ∧
          DescentOk cmp key root
            (find_node_or_parent_loop cmp key sub path rpath trail).path)) := by
  intro sub
  induction sub with
  | nil => intro path rpath trail hne; exact absurd rfl hne
  | node l x bf r ihl ihr =>
    intro path rpath trail _ hsub hpath hrpath hpt hzero hdesc hdisj
    by_cases h0 : cmp key x = 0
    · rw [show find_node_or_parent_loop cmp key (.node l x bf r) path rpath trail =
        ⟨true, path, none, trail⟩ from by rw [find_node_or_parent_loop, if_pos h0]]
      refine ⟨fun _ => ⟨l, x, bf, r, hsub, h0, hpath, hdesc⟩, fun h => by simp at h⟩
    · -- facts shared by both descent directions
      have hbfpath : bfAt root path = bf := bfAt_of_subtree hsub
      have hstep : ∀ (d : Dir),
          IsPath root (path ++ [d]) ∧
          subtreeAt root (path ++ [d]) = (match d with | Dir.l => l | Dir.r => r) := by
        intro d
        constructor
        · rw [IsPath_append, hsub]
          exact ⟨hpath, by cases d <;> simp [IsPath]⟩
        · rw [subtreeAt_append, hsub]
          cases d <;> simp [subtreeAt]
      have hdesc2 : ∀ (d : Dir),
          ((d = Dir.l → cmp key x < 0) ∧ (d = Dir.r → 0 < cmp key x)) →
          DescentOk cmp key root (path ++ [d]) := by
        intro d hd p' d' hpre
        rcases List.prefix_concat_iff.mp hpre with heq | hpre2
        · obtain ⟨rfl, rfl⟩ := concat_inj heq
          exact ⟨l, x, bf, r, hsub, hd.1, hd.2⟩
        · exact hdesc p' d' hpre2
      have haccum : ∀ (d : Dir),
          path ++ [d] = (if bf ≠ 0 then path else rpath) ++
            ((if bf ≠ 0 then [] else trail) ++ [d]) := by
        intro d
        by_cases hbf : bf ≠ 0 <;> simp [hbf, hpt]
      have hrpath2 : IsPath root (if bf ≠ 0 then path else rpath) := by
        by_cases hbf : bf ≠ 0 <;> simp [hbf, hpath, hrpath]
      have hzero2 : ∀ (d : Dir) q, q ≠ [] → q ≠ (if bf ≠ 0 then [] else trail) ++ [d] →
          q <+: (if bf ≠ 0 then [] else trail) ++ [d] →
          bfAt root ((if bf ≠ 0 then path else rpath) ++ q) = 0 := by
        intro d q hq1 hq2 hq3
        rcases List.prefix_concat_iff.mp hq3 with heq | hpre2
        · exact absurd heq hq2
        · by_cases hbf : bf ≠ 0
          · rw [if_pos hbf] at hpre2
            simp at hpre2
            exact absurd hpre2 hq1
          · rw [if_neg hbf] at hpre2 ⊢
            by_cases hqt : q = trail
            · subst hqt
              rw [← hpt, hbfpath]
              omega
            · exact hzero q hq1 hqt hpre2
      have hdisj2 : (if bf ≠ 0 then path else rpath) = [] ∨
          bfAt root (if bf ≠ 0 then path else rpath) ≠ 0 := by
        by_cases hbf : bf ≠ 0
        · rw [if_pos hbf, hbfpath]
          right
          exact hbf
        · rw [if_neg hbf]
          exact hdisj
      by_cases hlt : cmp key x < 0
      · cases l with
        | nil =>
          have hu : find_node_or_parent_loop cmp key (Node.node Node.nil x bf r)
              path rpath trail =
              ⟨false, path ++ [Dir.l], some (if bf ≠ 0 then path else rpath),
                (if bf ≠ 0 then [] else trail) ++ [Dir.l]⟩ := by
            rw [find_node_or_parent_loop]
            simp [h0, hlt]
          rw [hu]
          refine ⟨fun h => by simp at h, fun _ => ?_⟩
          exact ⟨if bf ≠ 0 then path else rpath, rfl, haccum Dir.l,
            (hstep Dir.l).1, (hstep Dir.l).2, hrpath2, by simp,
            hzero2 Dir.l, hdisj2, hdesc2 Dir.l ⟨fun _ => hlt, fun h => nomatch h⟩⟩
        | node a b c d =>
          have hu : find_node_or_parent_loop cmp key (Node.node (.node a b c d) x bf r)
              path rpath trail =
              find_node_or_parent_loop cmp key (.node a b c d) (path ++ [Dir.l])
                (if bf ≠ 0 then path else rpath)
                ((if bf ≠ 0 then [] else trail) ++ [Dir.l]) := by
            rw [find_node_or_parent_loop]
            simp [h0, hlt]
          rw [hu]
          exact ihl (path ++ [Dir.l]) (if bf ≠ 0 then path else rpath)
            ((if bf ≠ 0 then [] else trail) ++ [Dir.l]) (by simp)
            (hstep Dir.l).2 (hstep Dir.l).1 hrpath2 (haccum Dir.l)
            (hzero2 Dir.l) (hdesc2 Dir.l ⟨fun _ => hlt, fun h => nomatch h⟩) hdisj2
      · have hgt : 0 < cmp key x := by omega
        cases r with
        | nil =>
          have hu : find_node_or_parent_loop cmp key (Node.node l x bf Node.nil)
              path rpath trail =
              ⟨false, path ++ [Dir.r], some (if bf ≠ 0 then path else rpath),
                (if bf ≠ 0 then [] else trail) ++ [Dir.r]⟩ := by
            rw [find_node_or_parent_loop]
            simp [h0, hlt]
          rw [hu]
          refine ⟨fun h => by simp at h, fun _ => ?_⟩
          exact ⟨if bf ≠ 0 then path else rpath, rfl, haccum Dir.r,
            (hstep Dir.r).1, (hstep Dir.r).2, hrpath2, by simp,
            hzero2 Dir.r, hdisj2, hdesc2 Dir.r ⟨(fun h => nomatch h), fun _ => hgt⟩⟩
        | node a b c d =>
          have hu : find_node_or_parent_loop cmp key (Node.node l x bf (.node a b c d))
              path rpath trail =
              find_node_or_parent_loop cmp key (.node a b c d) (path ++ [Dir.r])
                (if bf ≠ 0 then path else rpath)
                ((if bf ≠ 0 then [] else trail) ++ [Dir.r]) := by
            rw [find_node_or_parent_loop]
            simp [h0, hlt]
          rw [hu]
          exact ihr (path ++ [Dir.r]) (if bf ≠ 0 then path else rpath)
            ((if bf ≠ 0 then [] else trail) ++ [Dir.r]) (by simp)
            (hstep Dir.r).2 (hstep Dir.r).1 hrpath2 (haccum Dir.r)
            (hzero2 Dir.r) (hdesc2 Dir.r ⟨(fun h => nomatch h), fun _ => hgt⟩) hdisj2

theorem fnop_spec (cmp : β → α → Int) (key : β) (root : Node α) (hroot : root ≠ .nil) :
    ((find_node_or_parent cmp key root).is_node = true →
      ∃ fl fx fbf fr,
        subtreeAt root (find_node_or_parent cmp key root).path = Node.node fl fx fbf fr ∧
        cmp key fx = 0 ∧
        IsPath root (find_node_or_parent cmp key root).path ∧
        DescentOk cmp key root (find_node_or_parent cmp key root).path) ∧
    ((find_node_or_parent cmp key root).is_node = false →
      ∃ rp, (find_node_or_parent cmp key root).rotate_path = some rp ∧
        (find_node_or_parent cmp key root).path =
          rp ++ (find_node_or_parent cmp key root).trail ∧
        IsPath root (find_node_or_parent cmp key root).path ∧
        subtreeAt root (find_node_or_parent cmp key root).path = .nil ∧
        IsPath root rp ∧
        (find_node_or_parent cmp key root).trail ≠ [] ∧
        (∀ q, q ≠ [] → q ≠ (find_node_or_parent cmp key root).trail →
          q <+: (find_node_or_parent cmp key root).trail → bfAt root (rp ++ q) = 0) ∧
        (rp = [] ∨ bfAt root rp ≠ 0) ∧
        DescentOk cmp key root (find_node_or_parent cmp key root).path) := by
  cases root with
  | nil => exact absurd rfl hroot
  | node l x bf r =>
    have hu : find_node_or_parent cmp key (.node l x bf r) =
        find_node_or_parent_loop cmp key (.node l x bf r) [] [] [] := rfl
    rw [hu]
    refine fnop_loop_spec cmp key _ _ [] [] [] (by simp) (by simp) trivial trivial rfl
      ?_ ?_ (Or.inl rfl)
    · intro q hq1 _ hq3
      exact absurd (List.prefix_nil.mp hq3) hq1
    · intro p d hpre
      exact absurd (List.prefix_nil.mp hpre) (by simp)

/-! ## Insertion: growth along an all-zero trail -/

theorem adjust_attach_grow (b : α) :
    ∀ (tr : List Dir) (s : Node α),
      tr ≠ [] → IsPath s tr → subtreeAt s tr = .nil →
      (∀ q, q ≠ [] → q ≠ tr → q <+: tr → bfAt s q = 0) →
      bfAt s [] = 0 →
      Avl s →
      Avl (adjustPath (replaceAt s tr (.node .nil b 0 .nil)) tr) ∧
      height (adjustPath (replaceAt s tr (.node .nil b 0 .nil)) tr) = height s + 1 ∧
      bfAt (adjustPath (replaceAt s tr (.node .nil b 0 .nil)) tr) [] =
        (if tr.head? = some Dir.l then -1 else 1) := by
  intro tr
  induction tr with
  | nil => intro s h; exact absurd rfl h
  | cons d tr ih =>
    intro s _ hpath hslot hzero hbf0 havl
    cases s with
    | nil => exact absurd hpath (by cases d <;> simp [IsPath])
    | node l x bf r =>
      have hbf : bf = 0 := by simpa [bfAt] using hbf0
      subst hbf
      obtain ⟨hal, har, hbfeq, -⟩ := havl
      cases d
      · -- attached on the left side
        cases tr with
        | nil =>
          have hl : l = .nil := by simpa [subtreeAt] using hslot
          subst hl
          have hr : r = .nil := by
            rw [← height_eq_zero_iff]
            simp [height] at hbfeq
            omega
          subst hr
          refine ⟨⟨⟨trivial, trivial, by simp [height], by simp⟩, trivial,
            by simp [height], by simp⟩, by simp [height], by simp [bfAt, subtreeAt]⟩
        | cons d2 tr2 =>
          have hlne : l ≠ .nil := by
            intro h
            rw [h] at hpath
            simp [IsPath] at hpath
          obtain ⟨iha, ihh, -⟩ := ih l (by simp)
            (by simpa [IsPath] using hpath)
            (by simpa [subtreeAt] using hslot)
            (by
              intro q hq1 hq2 hq3
              have := hzero (Dir.l :: q) (by simp) (by simp [hq2])
                (by simpa using hq3)
              simpa [bfAt, subtreeAt] using this)
            (by
              have := hzero [Dir.l] (by simp) (by simp) (by simp)
              simpa [bfAt, subtreeAt] using this)
            hal
          simp only [replaceAt, adjustPath]
          refine ⟨⟨iha, har, by rw [ihh]; omega, by omega⟩, ?_, ?_⟩
          · simp only [height] at hbfeq ⊢
            rw [ihh]
            simp [height]
            omega
          · simp [bfAt, subtreeAt]
      · -- attached on the right side
        cases tr with
        | nil =>
          have hr : r = .nil := by simpa [subtreeAt] using hslot
          subst hr
          have hl : l = .nil := by
            rw [← height_eq_zero_iff]
            simp [height] at hbfeq
            omega
          subst hl
          refine ⟨⟨trivial, ⟨trivial, trivial, by simp [height], by simp⟩,
            by simp [height], by simp⟩, by simp [height], by simp [bfAt, subtreeAt]⟩
        | cons d2 tr2 =>
          have hrne : r ≠ .nil := by
            intro h
            rw [h] at hpath
            simp [IsPath] at hpath
          obtain ⟨iha, ihh, -⟩ := ih r (by simp)
            (by simpa [IsPath] using hpath)
            (by simpa [subtreeAt] using hslot)
            (by
              intro q hq1 hq2 hq3
              have := hzero (Dir.r :: q) (by simp) (by simp [hq2])
                (by simpa using hq3)
              simpa [bfAt, subtreeAt] using this)
            (by
              have := hzero [Dir.r] (by simp) (by simp) (by simp)
              simpa [bfAt, subtreeAt] using this)
            har
          simp only [replaceAt, adjustPath]
          refine ⟨⟨hal, iha, by rw [ihh]; omega, by omega⟩, ?_, ?_⟩
          · simp only [height] at hbfeq ⊢
            rw [ihh]
            simp [height]
            omega
          · simp [bfAt, subtreeAt]

theorem rotate_eq_self {t : Node α} (h2 : bfAt t [] ≠ 2) (h2m : bfAt t [] ≠ -2) :
    rotate t = t := by
  cases t with
  | nil => rfl
  | node l x bf r =>
    have hb2 : bf ≠ 2 := by simpa [bfAt] using h2
    have hb2m : bf ≠ -2 := by simpa [bfAt] using h2m
    simp [rotate, hb2, hb2m]

/-- Attaching a new node below the rotate root and running the
balance-factor adjustment plus the automatic rotation yields an AVL tree;
the subtree height is unchanged, except when the rotate root itself was
perfectly balanced (nonzero balance factors never occur strictly below the
rotate root), in which case it grows by one. -/
theorem insert_fix_avl (b : α) (tr : List Dir) (s : Node α)
    (htr : tr ≠ []) (hpath : IsPath s tr) (hslot : subtreeAt s tr = .nil)
    (hzero : ∀ q, q ≠ [] → q ≠ tr → q <+: tr → bfAt s q = 0)
    (havl : Avl s) :
    Avl (rotate (adjustPath (replaceAt s tr (.node .nil b 0 .nil)) tr)) ∧
    (height (rotate (adjustPath (replaceAt s tr (.node .nil b 0 .nil)) tr)) = height s ∨
     (bfAt s [] = 0 ∧
      height (rotate (adjustPath (replaceAt s tr (.node .nil b 0 .nil)) tr)) =
        height s + 1)) := by
  by_cases hbf0 : bfAt s [] = 0
  · obtain ⟨ha, hh, hb⟩ := adjust_attach_grow b tr s htr hpath hslot hzero hbf0 havl
    have hid : rotate (adjustPath (replaceAt s tr (.node .nil b 0 .nil)) tr) =
        adjustPath (replaceAt s tr (.node .nil b 0 .nil)) tr := by
      refine rotate_eq_self ?_ ?_ <;> rw [hb] <;> split_ifs <;> omega
    rw [hid]
    exact ⟨ha, Or.inr ⟨hbf0, hh⟩⟩
  · cases s with
    | nil => exact absurd (by simp [bfAt] : bfAt (Node.nil : Node α) [] = 0) hbf0
    | node l x bf r =>
      have hbf : bf ≠ 0 := by simpa [bfAt] using hbf0
      obtain ⟨hal, har, hbfeq, hrange⟩ := havl
      cases tr with
      | nil => exact absurd rfl htr
      | cons d tr2 =>
        cases d
        · -- attach in the left subtree
          rcases (show bf = 1 ∨ bf = -1 by omega) with rfl | rfl
          · -- right was taller: balance factor becomes 0, no rotation
            have hA : Avl (adjustPath (replaceAt l tr2 (.node .nil b 0 .nil)) tr2) ∧
                height (adjustPath (replaceAt l tr2 (.node .nil b 0 .nil)) tr2) =
                  height l + 1 := by
              cases tr2 with
              | nil =>
                have hl : l = .nil := by simpa [subtreeAt] using hslot
                subst hl
                exact ⟨⟨trivial, trivial, by simp [height], by simp⟩, by simp [height]⟩
              | cons d2 tr3 =>
                obtain ⟨za, zh, -⟩ := adjust_attach_grow b (d2 :: tr3) l (by simp)
                  (by simpa [IsPath] using hpath)
                  (by simpa [subtreeAt] using hslot)
                  (by
                    intro q hq1 hq2 hq3
                    have := hzero (Dir.l :: q) (by simp) (by simp [hq2])
                      (by simpa using hq3)
                    simpa [bfAt, subtreeAt] using this)
                  (by
                    have := hzero [Dir.l] (by simp) (by simp) (by simp)
                    simpa [bfAt, subtreeAt] using this)
                  hal
                exact ⟨za, zh⟩
            simp only [replaceAt, adjustPath]
            have hid : rotate (Node.node
                (adjustPath (replaceAt l tr2 (.node .nil b 0 .nil)) tr2) x (1 - 1) r) =
                Node.node (adjustPath (replaceAt l tr2 (.node .nil b 0 .nil)) tr2)
                  x (1 - 1) r := by
              refine rotate_eq_self ?_ ?_ <;> simp [bfAt]
            rw [hid]
            refine ⟨⟨hA.1, har, by rw [hA.2]; omega, by omega⟩, Or.inl ?_⟩
            simp only [height]
            rw [hA.2]
            omega
          · -- left was taller: balance factor becomes -2, rotate
            have htr2 : tr2 ≠ [] := by
              intro h
              subst h
              have hl : l = .nil := by simpa [subtreeAt] using hslot
              subst hl
              simp only [height] at hbfeq
              omega
            obtain ⟨d2, tr3, rfl⟩ : ∃ d2 tr3, tr2 = d2 :: tr3 :=
              match tr2, htr2 with
              | d2 :: tr3, _ => ⟨d2, tr3, rfl⟩
            obtain ⟨za, zh, zb⟩ := adjust_attach_grow b (d2 :: tr3) l (by simp)
              (by simpa [IsPath] using hpath)
              (by simpa [subtreeAt] using hslot)
              (by
                intro q hq1 hq2 hq3
                have := hzero (Dir.l :: q) (by simp) (by simp [hq2])
                  (by simpa using hq3)
                simpa [bfAt, subtreeAt] using this)
              (by
                have := hzero [Dir.l] (by simp) (by simp) (by simp)
                simpa [bfAt, subtreeAt] using this)
              hal
            simp only [replaceAt, adjustPath]
            set A := adjustPath (replaceAt l (d2 :: tr3) (.node .nil b 0 .nil)) (d2 :: tr3)
              with hAdef
            cases hAc : A with
            | nil => rw [hAc] at zh; simp [height] at zh
            | node Al ax abf Ar =>
              rw [hAc] at za zh zb
              obtain ⟨zal, zar, zbfeq, -⟩ := za
              have hbA : abf = (if (d2 :: tr3).head? = some Dir.l then (-1 : Int) else 1) := by
                simpa [bfAt] using zb
              simp only [height] at zh
              cases d2
              · -- grown child leans left: single right rotation
                simp only [List.head?] at hbA
                rw [show abf = -1 by simpa using hbA] at zbfeq ⊢
                rw [show rotate (Node.node (Node.node Al ax (-1) Ar) x (-1 - 1) r) =
                    Node.node Al ax 0 (Node.node Ar x 0 r) from by
                  simp [rotate]]
                simp only [height] at hbfeq ⊢
                refine ⟨⟨zal, ⟨zar, har, by omega, by omega⟩, ?_, ?_⟩, Or.inl ?_⟩ <;>
                  (try simp only [height]) <;> omega
              · -- grown child leans right: double left-right rotation
                simp only [List.head?] at hbA
                rw [show abf = 1 by simpa using hbA] at zbfeq ⊢
                cases hArc : Ar with
                | nil =>
                  rw [hArc] at zbfeq
                  simp only [height] at zbfeq zh
                  omega
                | node bl bx bbf br =>
                  rw [hArc] at zar zbfeq zh
                  obtain ⟨zbl, zbr, zbbfeq, zbrange⟩ := zar
                  simp only [height] at zbfeq
                  rw [show rotate (Node.node (Node.node Al ax 1 (Node.node bl bx bbf br))
                      x (-1 - 1) r) =
                      Node.node (Node.node Al ax (if bbf = 1 then -1 else 0) bl) bx 0
                        (Node.node br x (if bbf = -1 then 1 else 0) r) from by
                    simp [rotate]]
                  simp only [height] at hbfeq zh ⊢
                  rcases (show bbf = -1 ∨ bbf = 0 ∨ bbf = 1 by omega) with rfl | rfl | rfl <;>
                    simp only [show ((-1 : Int) = 1) = False by simp,
                      show ((0 : Int) = 1) = False by simp,
                      show ((1 : Int) = 1) = True by simp,
                      show ((-1 : Int) = -1) = True by simp,
                      show ((0 : Int) = -1) = False by simp,
                      show ((1 : Int) = -1) = False by simp, if_true, if_false] <;>
                    refine ⟨⟨⟨zal, zbl, by (try simp only [height]); omega,
                      by (try simp only [height]); omega⟩,
                      ⟨zbr, har, by (try simp only [height]); omega,
                        by (try simp only [height]); omega⟩,
                      by (try simp only [height]); omega, by simp⟩, Or.inl ?_⟩ <;>
                    (try simp only [height]) <;> omega
        · -- attach in the right subtree
          rcases (show bf = 1 ∨ bf = -1 by omega) with rfl | rfl
          · -- right was taller: balance factor becomes 2, rotate
            have htr2 : tr2 ≠ [] := by
              intro h
              subst h
              have hr : r = .nil := by simpa [subtreeAt] using hslot
              subst hr
              simp only [height] at hbfeq
              omega
            obtain ⟨d2, tr3, rfl⟩ : ∃ d2 tr3, tr2 = d2 :: tr3 :=
              match tr2, htr2 with
              | d2 :: tr3, _ => ⟨d2, tr3, rfl⟩
            obtain ⟨za, zh, zb⟩ := adjust_attach_grow b (d2 :: tr3) r (by simp)
              (by simpa [IsPath] using hpath)
              (by simpa [subtreeAt] using hslot)
              (by
                intro q hq1 hq2 hq3
                have := hzero (Dir.r :: q) (by simp) (by simp [hq2])
                  (by simpa using hq3)
                simpa [bfAt, subtreeAt] using this)
              (by
                have := hzero [Dir.r] (by simp) (by simp) (by simp)
                simpa [bfAt, subtreeAt] using this)
              har
            simp only [replaceAt, adjustPath]
            set A := adjustPath (replaceAt r (d2 :: tr3) (.node .nil b 0 .nil)) (d2 :: tr3)
              with hAdef
            cases hAc : A with
            | nil => rw [hAc] at zh; simp [height] at zh
            | node Al ax abf Ar =>
              rw [hAc] at za zh zb
              obtain ⟨zal, zar, zbfeq, -⟩ := za
              have hbA : abf = (if (d2 :: tr3).head? = some Dir.l then (-1 : Int) else 1) := by
                simpa [bfAt] using zb
              simp only [height] at zh
              cases d2
              · -- grown child leans left: double right-left rotation
                simp only [List.head?] at hbA
                rw [show abf = -1 by simpa using hbA] at zbfeq ⊢
                cases hAlc : Al with
                | nil =>
                  rw [hAlc] at zbfeq
                  simp only [height] at zbfeq zh
                  omega
                | node bl bx bbf br =>
                  rw [hAlc] at zal zbfeq zh
                  obtain ⟨zbl, zbr, zbbfeq, zbrange⟩ := zal
                  simp only [height] at zbfeq
                  rw [show rotate (Node.node l x (1 + 1)
                      (Node.node (Node.node bl bx bbf br) ax (-1) Ar)) =
                      Node.node (Node.node l x (if bbf = 1 then -1 else 0) bl) bx 0
                        (Node.node br ax (if bbf = -1 then 1 else 0) Ar) from by
                    simp [rotate]]
                  simp only [height] at hbfeq zh ⊢
                  rcases (show bbf = -1 ∨ bbf = 0 ∨ bbf = 1 by omega) with rfl | rfl | rfl <;>
                    simp only [show ((-1 : Int) = 1) = False by simp,
                      show ((0 : Int) = 1) = False by simp,
                      show ((1 : Int) = 1) = True by simp,
                      show ((-1 : Int) = -1) = True by simp,
                      show ((0 : Int) = -1) = False by simp,
                      show ((1 : Int) = -1) = False by simp, if_true, if_false] <;>
                    refine ⟨⟨⟨hal, zbl, by (try simp only [height]); omega,
                      by (try simp only [height]); omega⟩,
                      ⟨zbr, zar, by (try simp only [height]); omega,
                        by (try simp only [height]); omega⟩,
                      by (try simp only [height]); omega, by simp⟩, Or.inl ?_⟩ <;>
                    (try simp only [height]) <;> omega
              · -- grown child leans right: single left rotation
                simp only [List.head?] at hbA
                rw [show abf = 1 by simpa using hbA] at zbfeq ⊢
                rw [show rotate (Node.node l x (1 + 1) (Node.node Al ax 1 Ar)) =
                    Node.node (Node.node l x 0 Al) ax 0 Ar from by
                  simp [rotate]]
                simp only [height] at hbfeq ⊢
                refine ⟨⟨⟨hal, zal, by omega, by omega⟩, zar, ?_, ?_⟩, Or.inl ?_⟩ <;>
                  (try simp only [height]) <;> omega
          · -- left was taller: balance factor becomes 0, no rotation
            have hA : Avl (adjustPath (replaceAt r tr2 (.node .nil b 0 .nil)) tr2) ∧
                height (adjustPath (replaceAt r tr2 (.node .nil b 0 .nil)) tr2) =
                  height r + 1 := by
              cases tr2 with
              | nil =>
                have hr : r = .nil := by simpa [subtreeAt] using hslot
                subst hr
                exact ⟨⟨trivial, trivial, by simp [height], by simp⟩, by simp [height]⟩
              | cons d2 tr3 =>
                obtain ⟨za, zh, -⟩ := adjust_attach_grow b (d2 :: tr3) r (by simp)
                  (by simpa [IsPath] using hpath)
                  (by simpa [subtreeAt] using hslot)
                  (by
                    intro q hq1 hq2 hq3
                    have := hzero (Dir.r :: q) (by simp) (by simp [hq2])
                      (by simpa using hq3)
                    simpa [bfAt, subtreeAt] using this)
                  (by
                    have := hzero [Dir.r] (by simp) (by simp) (by simp)
                    simpa [bfAt, subtreeAt] using this)
                  har
                exact ⟨za, zh⟩
            simp only [replaceAt, adjustPath]
            have hid : rotate (Node.node l x (-1 + 1)
                (adjustPath (replaceAt r tr2 (.node .nil b 0 .nil)) tr2)) =
                Node.node l x (-1 + 1)
                  (adjustPath (replaceAt r tr2 (.node .nil b 0 .nil)) tr2) := by
              refine rotate_eq_self ?_ ?_ <;> simp [bfAt]
            rw [hid]
            refine ⟨⟨hal, hA.1, by rw [hA.2]; omega, by omega⟩, Or.inl ?_⟩
            simp only [height]
            rw [hA.2]
            omega

/-! ## Further path and ordering helpers -/

theorem LawfulCmp.eq_trans {cmp : α → α → Int} (h : LawfulCmp cmp) {a b c : α}
    (h1 : cmp a b = 0) (h2 : cmp b c = 0) : cmp a c = 0 := by
  have h3 := h.le_trans a b c (le_of_eq h1) (le_of_eq h2)
  have h4 := h.le_trans c b a (le_of_eq (h.eq_symm h2)) (le_of_eq (h.eq_symm h1))
  have h5 := h.flip a c
  have h6 := h.flip c a
  omega

theorem subtree_avl (p : List Dir) :
    ∀ t : Node α, Avl t → IsPath t p → Avl (subtreeAt t p) := by
  induction p with
  | nil => intro t h _; simpa using h
  | cons d p ih =>
    intro t h hp
    cases t with
    | nil => exact absurd hp (by cases d <;> simp [IsPath])
    | node l x bf r =>
      cases d
      · exact ih l h.1 hp
      · exact ih r h.2.1 hp

theorem replaceAt_avl (p : List Dir) :
    ∀ (t u : Node α), IsPath t p → Avl t → Avl u →
      height u = height (subtreeAt t p) →
      Avl (replaceAt t p u) ∧ height (replaceAt t p u) = height t := by
  induction p with
  | nil => intro t u _ _ hu hh; simp only [replaceAt_nil_path]; exact ⟨hu, by simpa using hh⟩
  | cons d p ih =>
    intro t u hp ht hu hh
    cases t with
    | nil => exact absurd hp (by cases d <;> simp [IsPath])
    | node l x bf r =>
      obtain ⟨hal, har, hbfeq, hrange⟩ := ht
      cases d
      · obtain ⟨h1, h2⟩ := ih l u hp hal hu (by simpa [subtreeAt] using hh)
        refine ⟨⟨h1, har, by rw [h2]; omega, hrange⟩, ?_⟩
        simp only [replaceAt, height]
        rw [h2]
      · obtain ⟨h1, h2⟩ := ih r u hp har hu (by simpa [subtreeAt] using hh)
        refine ⟨⟨hal, h1, by rw [h2]; omega, hrange⟩, ?_⟩
        simp only [replaceAt, height]
        rw [h2]

theorem shapeBf_replaceAt_same (p : List Dir) :
    ∀ (t l : Node α) (x b : α) (bf : Int) (r : Node α),
      subtreeAt t p = .node l x bf r →
      shapeBf (replaceAt t p (.node l b bf r)) = shapeBf t := by
  induction p with
  | nil =>
    intro t l x b bf r hsub
    simp only [subtreeAt_nil_path] at hsub
    subst hsub
    simp [replaceAt, shapeBf]
  | cons d p ih =>
    intro t l x b bf r hsub
    cases t with
    | nil => simp [subtreeAt_nil_root] at hsub
    | node tl tx tbf tr =>
      cases d
      · simp only [replaceAt, shapeBf]
        rw [ih tl l x b bf r (by simpa [subtreeAt] using hsub)]
      · simp only [replaceAt, shapeBf]
        rw [ih tr l x b bf r (by simpa [subtreeAt] using hsub)]

theorem ordered_attach {cmp : α → α → Int} (h : LawfulCmp cmp) (key b : α)
    (hkb : cmp key b = 0) :
    ∀ (path : List Dir) (root : Node α), Ordered cmp root → IsPath root path →
      subtreeAt root path = .nil → DescentOk cmp key root path →
      Ordered cmp (replaceAt root path (.node .nil b 0 .nil)) := by
  intro path
  induction path with
  | nil =>
    intro root _ _ hslot _
    have hr : root = .nil := by simpa using hslot
    subst hr
    exact ⟨trivial, trivial, by simp [inorder], by simp [inorder]⟩
  | cons d p ih =>
    intro root hord hpath hslot hdesc
    cases root with
    | nil => exact absurd hpath (by cases d <;> simp [IsPath])
    | node l x bf r =>
      obtain ⟨hol, hor, hbl, hbr⟩ := hord
      obtain ⟨nl, nx, nbf, nr, heq, hdl, hdr⟩ := hdesc [] d (by simp)
      rw [subtreeAt_nil_path] at heq
      obtain ⟨rfl, rfl, rfl, rfl⟩ := Node.node.inj heq
      cases d
      · have hkx : cmp key x < 0 := hdl rfl
        have hbx : cmp b x < 0 := h.lt_of_eq_of_lt (h.eq_symm hkb) hkx
        have hdesc2 : DescentOk cmp key l p := by
          intro p' d' hpre
          obtain ⟨ql, qx, qbf, qr, heq2, hd2⟩ :=
            hdesc (Dir.l :: p') d' (by simpa using hpre)
          exact ⟨ql, qx, qbf, qr, by simpa [subtreeAt] using heq2, hd2⟩
        have hpl : IsPath l p := by simpa [IsPath] using hpath
        simp only [replaceAt]
        refine ⟨ih l hol hpl (by simpa [subtreeAt] using hslot) hdesc2, hor, ?_, hbr⟩
        intro y hy
        obtain ⟨pre, post, hrep, hdec⟩ := inorder_replaceAt_decomp p l hpl
        rw [hrep] at hy
        rw [(by simpa [subtreeAt] using hslot : subtreeAt l p = Node.nil)] at hdec
        simp only [inorder, List.append_nil, List.nil_append] at hdec
        have hy2 : y ∈ pre ∨ y = b ∨ y ∈ post := by simpa [inorder] using hy
        rcases hy2 with hy | rfl | hy
        · exact hbl y (by rw [hdec]; simp [hy])
        · exact hbx
        · exact hbl y (by rw [hdec]; simp [hy])
      · have hkx : 0 < cmp key x := hdr rfl
        have hbx : cmp x b < 0 := by
          have h1 : cmp x key < 0 := (h.flip x key).mpr hkx
          exact h.lt_of_lt_of_eq h1 hkb
        have hdesc2 : DescentOk cmp key r p := by
          intro p' d' hpre
          obtain ⟨ql, qx, qbf, qr, heq2, hd2⟩ :=
            hdesc (Dir.r :: p') d' (by simpa using hpre)
          exact ⟨ql, qx, qbf, qr, by simpa [subtreeAt] using heq2, hd2⟩
        have hpr : IsPath r p := by simpa [IsPath] using hpath
        simp only [replaceAt]
        refine ⟨hol, ih r hor hpr (by simpa [subtreeAt] using hslot) hdesc2, hbl, ?_⟩
        intro y hy
        obtain ⟨pre, post, hrep, hdec⟩ := inorder_replaceAt_decomp p r hpr
        rw [hrep] at hy
        rw [(by simpa [subtreeAt] using hslot : subtreeAt r p = Node.nil)] at hdec
        simp only [inorder, List.append_nil, List.nil_append] at hdec
        have hy2 : y ∈ pre ∨ y = b ∨ y ∈ post := by simpa [inorder] using hy
        rcases hy2 with hy | rfl | hy
        · exact hbr y (by rw [hdec]; simp [hy])
        · exact hbx
        · exact hbr y (by rw [hdec]; simp [hy])

theorem ordered_replace_eq {cmp : α → α → Int} (h : LawfulCmp cmp) (key b : α)
    (hkb : cmp key b = 0) :
    ∀ (path : List Dir) (root l : Node α) (x : α) (bf : Int) (r : Node α),
      Ordered cmp root → IsPath root path →
      subtreeAt root path = .node l x bf r → cmp key x = 0 →
      DescentOk cmp key root path →
      Ordered cmp (replaceAt root path (.node l b bf r)) := by
  intro path
  induction path with
  | nil =>
    intro root l x bf r hord _ hsub hkx _
    rw [subtreeAt_nil_path] at hsub
    subst hsub
    obtain ⟨hol, hor, hbl, hbr⟩ := hord
    have hxb : cmp x b = 0 := h.eq_trans (h.eq_symm hkx) hkb
    simp only [replaceAt_nil_path]
    refine ⟨hol, hor, ?_, ?_⟩
    · intro y hy
      exact h.lt_of_lt_of_eq (hbl y hy) hxb
    · intro y hy
      exact h.lt_of_eq_of_lt (h.eq_symm hxb) (hbr y hy)
  | cons d p ih =>
    intro root l x bf r hord hpath hsub hkx hdesc
    cases root with
    | nil => simp [subtreeAt_nil_root] at hsub
    | node tl tx tbf tr =>
      obtain ⟨hol, hor, hbl, hbr⟩ := hord
      obtain ⟨nl, nx, nbf, nr, heq, hdl, hdr⟩ := hdesc [] d (by simp)
      rw [subtreeAt_nil_path] at heq
      obtain ⟨rfl, rfl, rfl, rfl⟩ := Node.node.inj heq
      cases d
      · have hktx : cmp key tx < 0 := hdl rfl
        have hbx : cmp b tx < 0 := h.lt_of_eq_of_lt (h.eq_symm hkb) hktx
        have hdesc2 : DescentOk cmp key tl p := by
          intro p' d' hpre
          obtain ⟨ql, qx, qbf, qr, heq2, hd2⟩ :=
            hdesc (Dir.l :: p') d' (by simpa using hpre)
          exact ⟨ql, qx, qbf, qr, by simpa [subtreeAt] using heq2, hd2⟩
        have hpl : IsPath tl p := by simpa [IsPath] using hpath
        have hsubl : subtreeAt tl p = Node.node l x bf r := by simpa [subtreeAt] using hsub
        simp only [replaceAt]
        refine ⟨ih tl l x bf r hol hpl hsubl hkx hdesc2, hor, ?_, hbr⟩
        intro y hy
        obtain ⟨pre, post, hrep, hdec⟩ := inorder_replaceAt_decomp p tl hpl
        rw [hrep] at hy
        rw [hsubl] at hdec
        have hy2 : y ∈ pre ∨ y ∈ inorder l ∨ y = b ∨ y ∈ inorder r ∨ y ∈ post := by
          simpa [inorder] using hy
        rcases hy2 with hy | hy | rfl | hy | hy
        · exact hbl y (by rw [hdec]; simp [inorder, hy])
        · exact hbl y (by rw [hdec]; simp [inorder, hy])
        · exact hbx
        · exact hbl y (by rw [hdec]; simp [inorder, hy])
        · exact hbl y (by rw [hdec]; simp [inorder, hy])
      · have hktx : 0 < cmp key tx := hdr rfl
        have hbx : cmp tx b < 0 := by
          have h1 : cmp tx key < 0 := (h.flip tx key).mpr hktx
          exact h.lt_of_lt_of_eq h1 hkb
        have hdesc2 : DescentOk cmp key tr p := by
          intro p' d' hpre
          obtain ⟨ql, qx, qbf, qr, heq2, hd2⟩ :=
            hdesc (Dir.r :: p') d' (by simpa using hpre)
          exact ⟨ql, qx, qbf, qr, by simpa [subtreeAt] using heq2, hd2⟩
        have hpr : IsPath tr p := by simpa [IsPath] using hpath
        have hsubr : subtreeAt tr p = Node.node l x bf r := by simpa [subtreeAt] using hsub
        simp only [replaceAt]
        refine ⟨hol, ih tr l x bf r hor hpr hsubr hkx hdesc2, hbl, ?_⟩
        intro y hy
        obtain ⟨pre, post, hrep, hdec⟩ := inorder_replaceAt_decomp p tr hpr
        rw [hrep] at hy
        rw [hsubr] at hdec
        have hy2 : y ∈ pre ∨ y ∈ inorder l ∨ y = b ∨ y ∈ inorder r ∨ y ∈ post := by
          simpa [inorder] using hy
        rcases hy2 with hy | hy | rfl | hy | hy
        · exact hbr y (by rw [hdec]; simp [inorder, hy])
        · exact hbr y (by rw [hdec]; simp [inorder, hy])
        · exact hbx
        · exact hbr y (by rw [hdec]; simp [inorder, hy])
        · exact hbr y (by rw [hdec]; simp [inorder, hy])

/-! ## The shared absent-key attach branch -/

theorem bfAt_append (root : Node α) (p q : List Dir) :
    bfAt root (p ++ q) = bfAt (subtreeAt root p) q := by
  simp [bfAt, subtreeAt_append]

theorem attachRoot_spec (cmp : β → α → Int) (key : β) (b : α) (root : Node α)
    (habs : (find_node_or_parent cmp key root).is_node = false) :
    ∃ pre post,
      inorder root = pre ++ post ∧
      inorder (attachRoot cmp key b root) = pre ++ b :: post ∧
      (Avl root → Avl (attachRoot cmp key b root)) := by
  cases hroot : root with
  | nil =>
    refine ⟨[], [], by simp [inorder], ?_, ?_⟩
    · simp [attachRoot, find_node_or_parent, inorder]
    · intro _
      simp only [attachRoot, find_node_or_parent]
      exact ⟨trivial, trivial, by simp [height], by simp⟩
  | node a0 b0 c0 d0 =>
    rw [← hroot]
    obtain ⟨rp, hrp, hpteq, hpath, hslot, hrppath, htrne, hzero, hdisj, -⟩ :=
      (fnop_spec cmp key root (by rw [hroot]; simp)).2 habs
    have hexp : attachRoot cmp key b root =
        replaceAt (replaceAt root (find_node_or_parent cmp key root).path
            (.node .nil b 0 .nil)) rp
          (rebalance (subtreeAt (replaceAt root
            (find_node_or_parent cmp key root).path (.node .nil b 0 .nil)) rp)
            (find_node_or_parent cmp key root).trail) := by
      simp only [attachRoot, hrp]
    -- abbreviations
    have e1 : replaceAt root (find_node_or_parent cmp key root).path
        (.node .nil b 0 .nil) =
        replaceAt root rp (replaceAt (subtreeAt root rp)
          (find_node_or_parent cmp key root).trail (.node .nil b 0 .nil)) := by
      rw [hpteq, replaceAt_append]
    have e2 : subtreeAt (replaceAt root (find_node_or_parent cmp key root).path
        (.node .nil b 0 .nil)) rp =
        replaceAt (subtreeAt root rp) (find_node_or_parent cmp key root).trail
          (.node .nil b 0 .nil) := by
      rw [e1]
      exact subtreeAt_replaceAt_self rp root _ hrppath
    have htrpath : IsPath (subtreeAt root rp) (find_node_or_parent cmp key root).trail := by
      have := hpath
      rw [hpteq, IsPath_append] at this
      exact this.2
    have htrslot : subtreeAt (subtreeAt root rp)
        (find_node_or_parent cmp key root).trail = .nil := by
      rw [← subtreeAt_append, ← hpteq]
      exact hslot
    have htrzero : ∀ q, q ≠ [] → q ≠ (find_node_or_parent cmp key root).trail →
        q <+: (find_node_or_parent cmp key root).trail →
        bfAt (subtreeAt root rp) q = 0 := by
      intro q h1 h2 h3
      rw [← bfAt_append]
      exact hzero q h1 h2 h3
    have hfinal : attachRoot cmp key b root =
        replaceAt root rp (rotate (adjustPath (replaceAt (subtreeAt root rp)
          (find_node_or_parent cmp key root).trail (.node .nil b 0 .nil))
          (find_node_or_parent cmp key root).trail)) := by
      rw [hexp, e2, e1, rebalance]
      rw [replaceAt_replaceAt]
    -- in-order decompositions
    obtain ⟨pre, post, hrep, hdec⟩ :=
      inorder_replaceAt_decomp (find_node_or_parent cmp key root).path root hpath
    rw [hslot] at hdec
    simp only [inorder, List.append_nil, List.nil_append] at hdec
    obtain ⟨pre2, post2, hrep2, -⟩ := inorder_replaceAt_decomp rp root hrppath
    refine ⟨pre, post, hdec, ?_, ?_⟩
    · rw [hfinal, hrep2, inorder_rotate, inorder_adjustPath, ← hrep2, ← e1,
        hrep]
      simp [inorder]
    · intro havl
      have hs0 : Avl (subtreeAt root rp) := subtree_avl rp root havl hrppath
      obtain ⟨hout, hdisj2⟩ := insert_fix_avl b (find_node_or_parent cmp key root).trail
        (subtreeAt root rp) htrne htrpath htrslot htrzero hs0
      rcases hdisj2 with hsame | ⟨hzero0, hgrow⟩
      · rw [hfinal]
        exact (replaceAt_avl rp root _ hrppath havl hout hsame).1
      · have hrpnil : rp = [] := by
          rcases hdisj with h | h
          · exact h
          · exfalso
            have : bfAt root rp = bfAt (subtreeAt root rp) [] := by
              rw [← bfAt_append]
              simp
            rw [this, hzero0] at h
            exact h rfl
        subst hrpnil
        rw [hfinal]
        simpa using hout

theorem attachRoot_ordered (cmp : α → α → Int) (h : LawfulCmp cmp) (key b : α)
    (hkb : cmp key b = 0) (root : Node α)
    (habs : (find_node_or_parent cmp key root).is_node = false)
    (hord : Ordered cmp root) :
    Ordered cmp (attachRoot cmp key b root) := by
  cases hroot : root with
  | nil => simp [attachRoot, find_node_or_parent, Ordered, inorder]
  | node a0 b0 c0 d0 =>
    rw [← hroot]
    obtain ⟨rp, hrp, hpteq, hpath, hslot, hrppath, htrne, hzero, hdisj, hdesc⟩ :=
      (fnop_spec cmp key root (by rw [hroot]; simp)).2 habs
    have hord1 : Ordered cmp (replaceAt root (find_node_or_parent cmp key root).path
        (.node .nil b 0 .nil)) :=
      ordered_attach h key b hkb _ root hord hpath hslot hdesc
    -- the rotation step preserves the in-order traversal
    have hexp : attachRoot cmp key b root =
        replaceAt (replaceAt root (find_node_or_parent cmp key root).path
            (.node .nil b 0 .nil)) rp
          (rebalance (subtreeAt (replaceAt root
            (find_node_or_parent cmp key root).path (.node .nil b 0 .nil)) rp)
            (find_node_or_parent cmp key root).trail) := by
      simp only [attachRoot, hrp]
    have e1 : replaceAt root (find_node_or_parent cmp key root).path
        (.node .nil b 0 .nil) =
        replaceAt root rp (replaceAt (subtreeAt root rp)
          (find_node_or_parent cmp key root).trail (.node .nil b 0 .nil)) := by
      rw [hpteq, replaceAt_append]
    have e2 : subtreeAt (replaceAt root (find_node_or_parent cmp key root).path
        (.node .nil b 0 .nil)) rp =
        replaceAt (subtreeAt root rp) (find_node_or_parent cmp key root).trail
          (.node .nil b 0 .nil) := by
      rw [e1]
      exact subtreeAt_replaceAt_self rp root _ hrppath
    have hfinal : attachRoot cmp key b root =
        replaceAt root rp (rotate (adjustPath (replaceAt (subtreeAt root rp)
          (find_node_or_parent cmp key root).trail (.node .nil b 0 .nil))
          (find_node_or_parent cmp key root).trail)) := by
      rw [hexp, e2, e1, rebalance]
      rw [replaceAt_replaceAt]
    obtain ⟨pre2, post2, hrep2, -⟩ := inorder_replaceAt_decomp rp root hrppath
    have hio : inorder (attachRoot cmp key b root) =
        inorder (replaceAt root (find_node_or_parent cmp key root).path
          (.node .nil b 0 .nil)) := by
      rw [hfinal, hrep2, inorder_rotate, inorder_adjustPath, ← hrep2, ← e1]
    refine Pairwise.ordered _ ?_
    rw [hio]
    exact Ordered.pairwise h _ hord1

/-! ## Operation-level equations and specifications -/

theorem AvlTree_insert_eq_absent (cmp : α → α → Int) (t : AvlTree α) (a : α)
    (habs : (find_node_or_parent cmp a t.root).is_node = false) :
    AvlTree_insert cmp t a = ⟨⟨attachRoot cmp a a t.root, t.len + 1⟩, .nil, []⟩ := by
  simp only [AvlTree_insert, attachRoot, habs, Bool.false_eq_true, if_false]
  cases (find_node_or_parent cmp a t.root).rotate_path <;> rfl

theorem AvlTree_insert_eq_found (cmp : α → α → Int) (t : AvlTree α) (a : α)
    {fl fr : Node α} {fx : α} {fbf : Int}
    (hfound : (find_node_or_parent cmp a t.root).is_node = true)
    (hsub : subtreeAt t.root (find_node_or_parent cmp a t.root).path =
      .node fl fx fbf fr) :
    AvlTree_insert cmp t a =
      ⟨⟨replaceAt t.root (find_node_or_parent cmp a t.root).path (.node fl a fbf fr),
        t.len⟩, .node .nil fx 0 .nil, []⟩ := by
  simp only [AvlTree_insert, hfound, if_true, hsub]

theorem AvlTree_get_or_insert_eq_absent (cmp : β → α → Int) (t : AvlTree α) (key : β)
    (fac : Unit → α)
    (habs : (find_node_or_parent cmp key t.root).is_node = false) :
    AvlTree_get_or_insert cmp t key fac =
      ⟨⟨attachRoot cmp key (fac ()) t.root, t.len + 1⟩, fac (), 1, 1⟩ := by
  simp only [AvlTree_get_or_insert, attachRoot, habs, Bool.false_eq_true, if_false]
  cases (find_node_or_parent cmp key t.root).rotate_path <;> rfl

theorem AvlTree_get_or_insert_eq_found (cmp : β → α → Int) (t : AvlTree α) (key : β)
    (fac : Unit → α) {fl fr : Node α} {fx : α} {fbf : Int}
    (hfound : (find_node_or_parent cmp key t.root).is_node = true)
    (hsub : subtreeAt t.root (find_node_or_parent cmp key t.root).path =
      .node fl fx fbf fr) :
    AvlTree_get_or_insert cmp t key fac = ⟨t, fx, 0, 0⟩ := by
  simp only [AvlTree_get_or_insert, hfound, if_true, hsub]

theorem AvlTree_insert_found (cmp : α → α → Int) (t : AvlTree α) (a : α)
    (hfound : (find_node_or_parent cmp a t.root).is_node = true) :
    ∃ pre x post,
      inorder t.root = pre ++ x :: post ∧
      cmp a x = 0 ∧
      inorder (AvlTree_insert cmp t a).tree.root = pre ++ a :: post ∧
      (AvlTree_insert cmp t a).tree.len = t.len ∧
      (AvlTree_insert cmp t a).previous = .node .nil x 0 .nil ∧
      shapeBf (AvlTree_insert cmp t a).tree.root = shapeBf t.root ∧
      (Avl t.root → Avl (AvlTree_insert cmp t a).tree.root) ∧
      (LawfulCmp cmp → Ordered cmp t.root →
        Ordered cmp (AvlTree_insert cmp t a).tree.root) := by
  have hroot : t.root ≠ .nil := by
    intro h
    rw [h] at hfound
    simp [find_node_or_parent] at hfound
  obtain ⟨fl, fx, fbf, fr, hsub, hcmp, hpath, hdesc⟩ :=
    (fnop_spec cmp a t.root hroot).1 hfound
  rw [AvlTree_insert_eq_found cmp t a hfound hsub]
  obtain ⟨pre, post, hrep, hdec⟩ :=
    inorder_replaceAt_decomp (find_node_or_parent cmp a t.root).path t.root hpath
  rw [hsub] at hdec
  refine ⟨pre ++ inorder fl, fx, inorder fr ++ post, by simpa [inorder] using hdec,
    hcmp, by simp [hrep, inorder], rfl, rfl, shapeBf_replaceAt_same _ _ _ _ _ _ _ hsub,
    ?_, ?_⟩
  · intro havl
    have hfavl : Avl (subtreeAt t.root (find_node_or_parent cmp a t.root).path) :=
      subtree_avl _ _ havl hpath
    rw [hsub] at hfavl
    exact (replaceAt_avl _ t.root (Node.node fl a fbf fr) hpath havl
      (show Avl (Node.node fl a fbf fr) from
        ⟨hfavl.1, hfavl.2.1, hfavl.2.2.1, hfavl.2.2.2⟩)
      (by rw [hsub]; simp [height])).1
  · intro h hord
    exact ordered_replace_eq h a a (h.self_eq a) _ t.root fl fx fbf fr hord hpath
      hsub hcmp hdesc

theorem AvlTree_insert_absent (cmp : α → α → Int) (t : AvlTree α) (a : α)
    (habs : (find_node_or_parent cmp a t.root).is_node = false) :
    ∃ pre post,
      inorder t.root = pre ++ post ∧
      inorder (AvlTree_insert cmp t a).tree.root = pre ++ a :: post ∧
      (AvlTree_insert cmp t a).tree.len = t.len + 1 ∧
      (AvlTree_insert cmp t a).previous = .nil ∧
      (Avl t.root → Avl (AvlTree_insert cmp t a).tree.root) ∧
      (LawfulCmp cmp → Ordered cmp t.root →
        Ordered cmp (AvlTree_insert cmp t a).tree.root) := by
  rw [AvlTree_insert_eq_absent cmp t a habs]
  obtain ⟨pre, post, h1, h2, h3⟩ := attachRoot_spec cmp a a t.root habs
  exact ⟨pre, post, h1, h2, rfl, rfl, h3,
    fun h hord => attachRoot_ordered cmp h a a (h.self_eq a) t.root habs hord⟩

theorem AvlTree_get_or_insert_absent (cmp : α → α → Int) (t : AvlTree α) (key : α)
    (fac : Unit → α)
    (habs : (find_node_or_parent cmp key t.root).is_node = false) :
    ∃ pre post,
      inorder t.root = pre ++ post ∧
      inorder (AvlTree_get_or_insert cmp t key fac).tree.root = pre ++ fac () :: post ∧
      (AvlTree_get_or_insert cmp t key fac).tree.len = t.len + 1 ∧
      (AvlTree_get_or_insert cmp t key fac).inserted = 1 ∧
      (AvlTree_get_or_insert cmp t key fac).factory_calls = 1 ∧
      (Avl t.root → Avl (AvlTree_get_or_insert cmp t key fac).tree.root) ∧
      (LawfulCmp cmp → cmp key (fac ()) = 0 → Ordered cmp t.root →
        Ordered cmp (AvlTree_get_or_insert cmp t key fac).tree.root) := by
  rw [AvlTree_get_or_insert_eq_absent cmp t key fac habs]
  obtain ⟨pre, post, h1, h2, h3⟩ := attachRoot_spec cmp key (fac ()) t.root habs
  exact ⟨pre, post, h1, h2, rfl, rfl, rfl, h3,
    fun h hkf hord => attachRoot_ordered cmp h key (fac ()) hkf t.root habs hord⟩

theorem AvlTree_get_or_insert_found (cmp : β → α → Int) (t : AvlTree α) (key : β)
    (fac : Unit → α)
    (hfound : (find_node_or_parent cmp key t.root).is_node = true) :
    (AvlTree_get_or_insert cmp t key fac).tree = t ∧
    (AvlTree_get_or_insert cmp t key fac).inserted = 0 ∧
    (AvlTree_get_or_insert cmp t key fac).factory_calls = 0 ∧
    ∃ x, (AvlTree_get_or_insert cmp t key fac).result = x ∧
      x ∈ inorder t.root ∧ cmp key x = 0 := by
  have hroot : t.root ≠ .nil := by
    intro h
    rw [h] at hfound
    simp [find_node_or_parent] at hfound
  obtain ⟨fl, fx, fbf, fr, hsub, hcmp, hpath, -⟩ :=
    (fnop_spec cmp key t.root hroot).1 hfound
  rw [AvlTree_get_or_insert_eq_found cmp t key fac hfound hsub]
  refine ⟨rfl, rfl, rfl, fx, rfl, ?_, hcmp⟩
  obtain ⟨pre, post, -, hdec⟩ :=
    inorder_replaceAt_decomp (find_node_or_parent cmp key t.root).path t.root hpath
  rw [hsub] at hdec
  rw [hdec]
  simp [inorder]

/-! ## The reachable-state invariant -/

theorem reaches_invariant (cmp : α → α → Int) (h : LawfulCmp cmp) (t : AvlTree α)
    (hr : Reaches cmp t) :
    Avl t.root ∧ Ordered cmp t.root ∧ t.len = (inorder t.root).length := by
  induction hr with
  | base => exact ⟨trivial, trivial, rfl⟩
  | ins t a hr ih =>
    obtain ⟨ha, ho, hl⟩ := ih
    by_cases hf : (find_node_or_parent cmp a t.root).is_node = true
    · obtain ⟨pre, x, post, hio, -, hio2, hlen, -, -, havl, hord⟩ :=
        AvlTree_insert_found cmp t a hf
      refine ⟨havl ha, hord h ho, ?_⟩
      rw [hlen, hio2, hl, hio]
      simp
    · obtain ⟨pre, post, hio, hio2, hlen, -, havl, hord⟩ :=
        AvlTree_insert_absent cmp t a (by simpa using hf)
      refine ⟨havl ha, hord h ho, ?_⟩
      rw [hlen, hio2, hl, hio]
      simp [List.length_append] <;> omega
  | goi t k fac hr hkf ih =>
    obtain ⟨ha, ho, hl⟩ := ih
    by_cases hf : (find_node_or_parent cmp k t.root).is_node = true
    · obtain ⟨heq, -, -, -⟩ := AvlTree_get_or_insert_found cmp t k fac hf
      rw [heq]
      exact ⟨ha, ho, hl⟩
    · obtain ⟨pre, post, hio, hio2, hlen, -, -, havl, hord⟩ :=
        AvlTree_get_or_insert_absent cmp t k fac (by simpa using hf)
      refine ⟨havl ha, hord h hkf ho, ?_⟩
      rw [hlen, hio2, hl, hio]
      simp [List.length_append] <;> omega
  | rem t k res hr hres ih =>
    obtain ⟨ha, ho, hl⟩ := ih
    rcases AvlTree_remove_cases cmp t k res hres with
      ⟨heq, -, -, -, -⟩ | ⟨fx, pre, post, -, -, -, hio, hio2, hlen, havl⟩
    · rw [heq]
      exact ⟨ha, ho, hl⟩
    · refine ⟨havl ha, ?_, ?_⟩
      · refine Pairwise.ordered _ ?_
        rw [hio2]
        have hsubl : List.Sublist (pre ++ post) (pre ++ fx :: post) :=
          List.Sublist.append_left (List.sublist_cons_self fx post) pre
        have hpw : (pre ++ fx :: post).Pairwise (fun a b => cmp a b < 0) := by
          rw [← hio]
          exact Ordered.pairwise h _ ho
        exact hpw.sublist hsubl
      · rw [hlen, hio2, hl, hio]
        simp [List.length_append] <;> omega

/-! ## Support lemmas for the claim statements -/

theorem avl_everyNode :
    ∀ t : Node α, Avl t →
      EveryNode (fun l _ bf r => bf = (height r : Int) - height l ∧
        (bf = -1 ∨ bf = 0 ∨ bf = 1)) t := by
  intro t
  induction t with
  | nil => intro _; trivial
  | node l x bf r ihl ihr =>
    intro h
    obtain ⟨hal, har, hbfeq, hrange⟩ := h
    exact ⟨⟨hbfeq, by omega⟩, ihl hal, ihr har⟩

theorem size_eq_length_inorder : ∀ t : Node α, size t = (inorder t).length := by
  intro t
  induction t with
  | nil => rfl
  | node l x bf r ihl ihr => simp [size, inorder, ihl, ihr]; omega

theorem inorder_eq_nil_iff : ∀ t : Node α, inorder t = [] ↔ t = .nil := by
  intro t
  cases t <;> simp [inorder]

theorem fnop_loop_is_node (cmp : β → α → Int) (key : β) :
    ∀ (sub : Node α) (path rpath trail : List Dir),
      ((find_node_or_parent_loop cmp key sub path rpath trail).is_node = true ↔
        find cmp key sub ≠ .nil) := by
  intro sub
  induction sub with
  | nil => intro path rpath trail; simp [find_node_or_parent_loop, find]
  | node l x bf r ihl ihr =>
    intro path rpath trail
    by_cases h0 : cmp key x = 0
    · rw [show find_node_or_parent_loop cmp key (.node l x bf r) path rpath trail =
        ⟨true, path, none, trail⟩ from by rw [find_node_or_parent_loop, if_pos h0]]
      simp [find, h0]
    · by_cases hlt : cmp key x < 0
      · cases l with
        | nil =>
          have hu : find_node_or_parent_loop cmp key (Node.node Node.nil x bf r)
              path rpath trail =
              ⟨false, path ++ [Dir.l], some (if bf ≠ 0 then path else rpath),
                (if bf ≠ 0 then [] else trail) ++ [Dir.l]⟩ := by
            rw [find_node_or_parent_loop]
            simp [h0, hlt]
          rw [hu]
          simp [find, h0, hlt]
        | node a b c d =>
          have hu : find_node_or_parent_loop cmp key (Node.node (.node a b c d) x bf r)
              path rpath trail =
              find_node_or_parent_loop cmp key (.node a b c d) (path ++ [Dir.l])
                (if bf ≠ 0 then path else rpath)
                ((if bf ≠ 0 then [] else trail) ++ [Dir.l]) := by
            rw [find_node_or_parent_loop]
            simp [h0, hlt]
          rw [hu, ihl]
          simp [find, h0, hlt]
      · cases r with
        | nil =>
          have hu : find_node_or_parent_loop cmp key (Node.node l x bf Node.nil)
              path rpath trail =
              ⟨false, path ++ [Dir.r], some (if bf ≠ 0 then path else rpath),
                (if bf ≠ 0 then [] else trail) ++ [Dir.r]⟩ := by
            rw [find_node_or_parent_loop]
            simp [h0, hlt]
          rw [hu]
          simp [find, h0, hlt]
        | node a b c d =>
          have hu : find_node_or_parent_loop cmp key (Node.node l x bf (.node a b c d))
              path rpath trail =
              find_node_or_parent_loop cmp key (.node a b c d) (path ++ [Dir.r])
                (if bf ≠ 0 then path else rpath)
                ((if bf ≠ 0 then [] else trail) ++ [Dir.r]) := by
            rw [find_node_or_parent_loop]
            simp [h0, hlt]
          rw [hu, ihr]
          simp [find, h0, hlt]

theorem fnop_is_node_iff_find (cmp : β → α → Int) (key : β) (root : Node α) :
    (find_node_or_parent cmp key root).is_node = true ↔ find cmp key root ≠ .nil := by
  cases root with
  | nil => simp [find_node_or_parent, find]
  | node l x bf r => exact fnop_loop_is_node cmp key _ [] [] []

/-- A key-equal entry is present exactly when the descent finds a node
(requires the ordering invariant and a lawful comparator). -/
theorem fnop_is_node_iff_mem (cmp : α → α → Int) (h : LawfulCmp cmp) (key : α)
    (root : Node α) (hord : Ordered cmp root) :
    (find_node_or_parent cmp key root).is_node = true ↔
      ∃ x ∈ inorder root, cmp key x = 0 := by
  constructor
  · intro hf
    have hroot : root ≠ .nil := by
      intro hr
      rw [hr] at hf
      simp [find_node_or_parent] at hf
    obtain ⟨fl, fx, fbf, fr, hsub, hcmp, hpath, -⟩ := (fnop_spec cmp key root hroot).1 hf
    obtain ⟨pre, post, -, hdec⟩ :=
      inorder_replaceAt_decomp (find_node_or_parent cmp key root).path root hpath
    rw [hsub] at hdec
    exact ⟨fx, by rw [hdec]; simp [inorder], hcmp⟩
  · intro ⟨x, hx, hcmp⟩
    rw [fnop_is_node_iff_find]
    exact find_ne_nil_of_mem h hord x hx hcmp

theorem searchCrumbs_none_not_mem (cmp : α → α → Int) (h : LawfulCmp cmp) (key : α) :
    ∀ (t : Node α) (cs₀ : List (Crumb α)), Ordered cmp t →
      searchCrumbs cmp key t cs₀ = none → ∀ x ∈ inorder t, cmp key x ≠ 0 := by
  intro t
  induction t with
  | nil => intro cs₀ _ _ x hx; simp [inorder] at hx
  | node tl tx tbf tr ihl ihr =>
    intro cs₀ hord hnone x hx hcmp
    obtain ⟨hol, hor, hbl, hbr⟩ := hord
    simp only [searchCrumbs] at hnone
    split_ifs at hnone with h1 h2
    · rcases (by simpa [inorder] using hx :
          x ∈ inorder tl ∨ x = tx ∨ x ∈ inorder tr) with hm | rfl | hm
      · exact ihl _ hol hnone x hm hcmp
      · omega
      · have h3 := h.lt_trans h2 (hbr x hm)
        omega
    · rcases (by simpa [inorder] using hx :
          x ∈ inorder tl ∨ x = tx ∨ x ∈ inorder tr) with hm | rfl | hm
      · have h3 := h.lt_of_eq_of_lt hcmp (hbl x hm)
        omega
      · omega
      · exact ihr _ hor hnone x hm hcmp

/-- In a strictly ordered traversal a key matches at most one position. -/
theorem cmp_eq_unique_in_decomp (cmp : α → α → Int) (h : LawfulCmp cmp)
    {l pre post : List α} {x k : α}
    (hdec : l = pre ++ x :: post)
    (hpw : l.Pairwise (fun a b => cmp a b < 0))
    (hk : k ∈ l) (hcmp : cmp k x = 0) : x = k := by
  subst hdec
  rw [List.pairwise_append] at hpw
  obtain ⟨-, hpost, hcross⟩ := hpw
  rw [List.pairwise_cons] at hpost
  rcases List.mem_append.mp hk with hm | hm
  · exfalso
    have := hcross k hm x (List.mem_cons_self _ _)
    omega
  · rcases List.mem_cons.mp hm with rfl | hm
    · rfl
    · exfalso
      have h1 := hpost.1 k hm
      have h2 := (h.flip x k).mp h1
      omega

/-- `rotate` performs exactly zero or one rotations. -/
theorem rotate_eq_or_one (t : Node α) : rotate t = t ∨ OneRotation t (rotate t) := by
  cases t with
  | nil => exact Or.inl rfl
  | node l x bf r =>
    by_cases h2 : bf = 2
    · subst h2
      cases r with
      | nil => exact Or.inl rfl
      | node ml mx mbf mr =>
        by_cases hm : mbf = -1
        · subst hm
          cases ml with
          | nil => exact Or.inl rfl
          | node bl bx bbf br =>
            right
            rw [show rotate (Node.node l x 2 (.node (.node bl bx bbf br) mx (-1) mr)) =
              .node (.node l x (if bbf = 1 then -1 else 0) bl) bx 0
                (.node br mx (if bbf = -1 then 1 else 0) mr) from by simp [rotate]]
            exact Or.inr (Or.inr (Or.inl
              ⟨l, x, bl, bx, br, mx, mr, _, _, _, _, _, _, rfl, rfl⟩))
        · right
          rw [show rotate (Node.node l x 2 (.node ml mx mbf mr)) =
            .node (.node l x 0 ml) mx 0 mr from by simp [rotate, hm]]
          exact Or.inl ⟨l, x, ml, mx, mr, _, _, _, _, rfl, rfl⟩
    · by_cases hn2 : bf = -2
      · subst hn2
        cases l with
        | nil => exact Or.inl (by simp [rotate])
        | node ml mx mbf mr =>
          by_cases hm : mbf = 1
          · subst hm
            cases mr with
            | nil => exact Or.inl (by simp [rotate])
            | node bl bx bbf br =>
              right
              rw [show rotate (Node.node (.node ml mx 1 (.node bl bx bbf br)) x (-2) r) =
                .node (.node ml mx (if bbf = 1 then -1 else 0) bl) bx 0
                  (.node br x (if bbf = -1 then 1 else 0) r) from by simp [rotate]]
              exact Or.inr (Or.inr (Or.inr
                ⟨ml, mx, bl, bx, br, x, r, _, _, _, _, _, _, rfl, rfl⟩))
          · right
            rw [show rotate (Node.node (.node ml mx mbf mr) x (-2) r) =
              .node ml mx 0 (.node mr x 0 r) from by simp [rotate, hm]]
            exact Or.inr (Or.inl ⟨ml, mx, mr, x, r, _, _, _, _, rfl, rfl⟩)
      · exact Or.inl (by simp [rotate, h2, hn2])

/-- Along the trail, `adjustPath` decrements the balance factor of each
node it leaves to the left and increments each it leaves to the right. -/
theorem adjustPath_bfAt :
    ∀ (q : List Dir) (s : Node α) (tr : List Dir) (d : Dir),
      (q ++ [d]) <+: tr → subtreeAt s q ≠ .nil →
      bfAt (adjustPath s tr) q = bfAt s q + (if d = Dir.l then -1 else 1) := by
  intro q
  induction q with
  | nil =>
    intro s tr d hpre hne
    obtain ⟨rest, hrest⟩ := hpre
    subst hrest
    cases s with
    | nil => exact absurd (subtreeAt_nil_path _) hne
    | node l x bf r => cases d <;> simp [adjustPath, bfAt, subtreeAt] <;> omega
  | cons e q ih =>
    intro s tr d hpre hne
    obtain ⟨rest, hrest⟩ := hpre
    subst hrest
    cases s with
    | nil => exact absurd (subtreeAt_nil_root _) hne
    | node l x bf r =>
      cases e with
      | l =>
        rw [show ((Dir.l :: q) ++ [d]) ++ rest = Dir.l :: ((q ++ [d]) ++ rest) from rfl]
        simp only [adjustPath, bfAt, subtreeAt]
        exact ih l ((q ++ [d]) ++ rest) d ⟨rest, rfl⟩ (by simpa [subtreeAt] using hne)
      | r =>
        rw [show ((Dir.r :: q) ++ [d]) ++ rest = Dir.r :: ((q ++ [d]) ++ rest) from rfl]
        simp only [adjustPath, bfAt, subtreeAt]
        exact ih r ((q ++ [d]) ++ rest) d ⟨rest, rfl⟩ (by simpa [subtreeAt] using hne)

/-- Removing the keys of an ordered tree one at a time, in any order,
empties the tree and evicts exactly the requested keys. -/
theorem removeAll_perm (cmp : α → α → Int) (h : LawfulCmp cmp) :
    ∀ (ks : List α) (t : AvlTree α), Ordered cmp t.root →
      t.len = (inorder t.root).length → ks.Perm (inorder t.root) →
      removeAll cmp t ks = some (⟨.nil, 0⟩, ks) := by
  intro ks
  induction ks with
  | nil =>
    intro t hord hlen hperm
    obtain ⟨root, len⟩ := t
    have h1 : inorder root = [] := hperm.symm.eq_nil
    have h2 : root = .nil := (inorder_eq_nil_iff root).mp h1
    subst h2
    have h3 : len = 0 := by simpa [inorder] using hlen
    subst h3
    rfl
  | cons k ks ih =>
    intro t hord hlen hperm
    have hk : k ∈ inorder t.root := hperm.subset (List.mem_cons_self k ks)
    have hroot : t.root ≠ .nil := by
      intro hr
      rw [hr] at hk
      simp [inorder] at hk
    have hsome : ∃ res, AvlTree_remove cmp t k = some res := by
      obtain ⟨root, len⟩ := t
      cases root with
      | nil => exact absurd rfl hroot
      | node a b c d =>
        rcases hs : searchCrumbs cmp k (Node.node a b c d) [] with - | ⟨⟨fl, fx, fbf, fr⟩, cs⟩
        · refine ⟨⟨⟨Node.node a b c d, len⟩, .nil, []⟩, ?_⟩
          simp only [AvlTree_remove, hs]
        · refine ⟨⟨⟨remove_node fl fx fbf fr cs, len - 1⟩, .node .nil fx 0 .nil, []⟩, ?_⟩
          simp only [AvlTree_remove, hs]
    obtain ⟨res, hres⟩ := hsome
    rcases AvlTree_remove_cases cmp t k res hres with
      ⟨-, -, -, -, hnone⟩ | ⟨fx, pre, post, hrem, -, hcmp, hio, hio2, hlen2, -⟩
    · exact absurd (h.self_eq k) (searchCrumbs_none_not_mem cmp h k t.root [] hord hnone k hk)
    · have hpw : (inorder t.root).Pairwise (fun a b => cmp a b < 0) :=
        Ordered.pairwise h _ hord
      have hfx : fx = k := cmp_eq_unique_in_decomp cmp h hio hpw hk hcmp
      subst hfx
      have hord2 : Ordered cmp res.tree.root := by
        refine Pairwise.ordered _ ?_
        rw [hio2]
        have hsubl : List.Sublist (pre ++ post) (pre ++ fx :: post) :=
          List.Sublist.append_left (List.sublist_cons_self fx post) pre
        exact (by rw [← hio]; exact hpw : (pre ++ fx :: post).Pairwise _).sublist hsubl
      have hlen3 : res.tree.len = (inorder res.tree.root).length := by
        rw [hlen2, hio2, hlen, hio]
        simp [List.length_append]
      have hperm2 : ks.Perm (inorder res.tree.root) := by
        rw [hio2]
        rw [hio] at hperm
        exact (hperm.trans List.perm_middle).cons_inv
      have hrec := ih res.tree hord2 hlen3 hperm2
      show removeAll cmp t (fx :: ks) = some (⟨.nil, 0⟩, fx :: ks)
      simp [removeAll, hres, hrec, hrem]

theorem AvlTree_insert_deleted (cmp : α → α → Int) (t : AvlTree α) (a : α) :
    (AvlTree_insert cmp t a).deleted = [] := by
  rw [AvlTree_insert]
  dsimp only
  split
  · split <;> rfl
  · split <;> rfl

theorem subtreeAt_replaceAt_prefix_ne_nil :
    ∀ (q : List Dir) (root : Node α) (d : Dir) (rest : List Dir) (s : Node α),
      IsPath root (q ++ [d]) →
      subtreeAt (replaceAt root ((q ++ [d]) ++ rest) s) q ≠ .nil := by
  intro q
  induction q with
  | nil =>
    intro root d rest s hp
    cases root with
    | nil => exact absurd hp (by cases d <;> simp [IsPath])
    | node l x bf r => cases d <;> simp [replaceAt, subtreeAt]
  | cons e q ih =>
    intro root d rest s hp
    cases root with
    | nil => exact absurd hp (by cases e <;> simp [IsPath])
    | node l x bf r =>
      cases e with
      | l =>
        rw [show ((Dir.l :: q ++ [d]) ++ rest) = Dir.l :: ((q ++ [d]) ++ rest) from rfl]
        simp only [replaceAt, subtreeAt]
        exact ih l d rest s hp
      | r =>
        rw [show ((Dir.r :: q ++ [d]) ++ rest) = Dir.r :: ((q ++ [d]) ++ rest) from rfl]
        simp only [replaceAt, subtreeAt]
        exact ih r d rest s hp

/-! ## The claims -/

/-- C1: the claim asserts that removing from an initialized empty tree is
safe (returns `NULL`, no deleter call, size stays zero).  In the code the
descent loop of `AvlTree_remove` exits immediately on an empty root, so
`remove_node` is reached with a `NULL` node pointer: after a failed debug
assertion it dereferences `NULL` (`node->left`), and `--self->len` wraps
the size counter below zero.  The embedding marks exactly this execution
as undefined behavior (`none`), for every key and every heterogeneous
comparator. -/
theorem C1_remove_from_empty_tree_undefined (cmp : β → α → Int) (key : β) :
    AvlTree_remove cmp (AvlTree_new : AvlTree α) key = none := rfl

/-- C3: inserting a node whose key compares equal to an entry already in
the tree swaps the new payload into the existing node's position (the
in-order traversal replaces the old payload by the new one at the same
spot), returns the displaced node, and leaves the tree topology, all
balance factors (`shapeBf`), and the size unchanged. -/
theorem C3_insert_duplicate_swaps (cmp : α → α → Int) (t : AvlTree α) (a : α)
    (hlaw : LawfulCmp cmp) (hord : Ordered cmp t.root)
    (hmem : ∃ x ∈ inorder t.root, cmp a x = 0) :
    ∃ pre x post,
      inorder t.root = pre ++ x :: post ∧ cmp a x = 0 ∧
      inorder (AvlTree_insert cmp t a).tree.root = pre ++ a :: post ∧
      (AvlTree_insert cmp t a).previous = .node .nil x 0 .nil ∧
      shapeBf (AvlTree_insert cmp t a).tree.root = shapeBf t.root ∧
      (AvlTree_insert cmp t a).tree.len = t.len := by
  have hfound : (find_node_or_parent cmp a t.root).is_node = true :=
    (fnop_is_node_iff_mem cmp hlaw a t.root hord).mpr hmem
  obtain ⟨pre, x, post, h1, h2, h3, h4, h5, h6, -, -⟩ :=
    AvlTree_insert_found cmp t a hfound
  exact ⟨pre, x, post, h1, h2, h3, h5, h6, h4⟩

/-- Concrete instance of the C3 theorem on a one-node integer tree. -/
theorem C3_witness :
    LawfulCmp icmp ∧
    Ordered icmp (⟨Node.node .nil (5 : Int) 0 .nil, 1⟩ : AvlTree Int).root ∧
    (∃ x ∈ inorder (⟨Node.node .nil (5 : Int) 0 .nil, 1⟩ : AvlTree Int).root,
      icmp 5 x = 0) ∧
    (∃ pre x post,
      inorder (⟨Node.node .nil (5 : Int) 0 .nil, 1⟩ : AvlTree Int).root =
        pre ++ x :: post ∧
      icmp 5 x = 0 ∧
      inorder (AvlTree_insert icmp (⟨Node.node .nil (5 : Int) 0 .nil, 1⟩ :
        AvlTree Int) 5).tree.root = pre ++ 5 :: post ∧
      (AvlTree_insert icmp (⟨Node.node .nil (5 : Int) 0 .nil, 1⟩ :
        AvlTree Int) 5).previous = .node .nil x 0 .nil ∧
      shapeBf (AvlTree_insert icmp (⟨Node.node .nil (5 : Int) 0 .nil, 1⟩ :
        AvlTree Int) 5).tree.root =
        shapeBf (⟨Node.node .nil (5 : Int) 0 .nil, 1⟩ : AvlTree Int).root ∧
      (AvlTree_insert icmp (⟨Node.node .nil (5 : Int) 0 .nil, 1⟩ :
        AvlTree Int) 5).tree.len =
        (⟨Node.node .nil (5 : Int) 0 .nil, 1⟩ : AvlTree Int).len) :=
  ⟨lawful_icmp, by decide, by decide,
    C3_insert_duplicate_swaps icmp ⟨Node.node .nil (5 : Int) 0 .nil, 1⟩ 5
      lawful_icmp (by decide) (by decide)⟩

/-- C4: one step of the deletion retrace loop
(`update_balance_factors_and_rebalance`), for each row of the claim, shown
here for a deletion in the left subtree (crumb `cl`, adjustment `+1`) with
the mirrored right-subtree rows (`cr`, adjustment `-1`) below:
the loop stops when the adjusted balance factor becomes `±1`, continues
upward when it becomes `0`, and when it becomes `±2` applies the rotation
selected by the sibling's balance factor — the sibling-factor-`0` case is a
single rotation leaving `node.bf = +1`, `sibling.bf = -1` and stops the
retrace immediately, the sibling-factor-`±1` cases (single and double
rotation) continue upward. -/
theorem C4_remove_retrace_steps (x : α) (t : Node α) (cs : List (Crumb α)) :
    -- left-subtree deletion, bf 0 → +1: stop
    (∀ r : Node α, update_balance_factors_and_rebalance (.cl x 0 r :: cs) t =
      plug cs (.node t x 1 r)) ∧
    -- left-subtree deletion, bf -1 → 0: continue upward
    (∀ r : Node α, update_balance_factors_and_rebalance (.cl x (-1) r :: cs) t =
      update_balance_factors_and_rebalance cs (.node t x 0 r)) ∧
    -- left-subtree deletion, bf +1 → +2, sibling bf 0:
    -- single left rotation, node.bf = +1, sibling.bf = -1, stop
    (∀ (rl : Node α) rx (rr : Node α),
      update_balance_factors_and_rebalance (.cl x 1 (.node rl rx 0 rr) :: cs) t =
      plug cs (.node (.node t x 1 rl) rx (-1) rr)) ∧
    -- left-subtree deletion, bf +1 → +2, sibling bf +1:
    -- single left rotation, both balance factors 0, continue upward
    (∀ (rl : Node α) rx (rr : Node α),
      update_balance_factors_and_rebalance (.cl x 1 (.node rl rx 1 rr) :: cs) t =
      update_balance_factors_and_rebalance cs (.node (.node t x 0 rl) rx 0 rr)) ∧
    -- left-subtree deletion, bf +1 → +2, sibling bf -1:
    -- right-left double rotation, continue upward
    (∀ (bl : Node α) bx bbf (br : Node α) rx (rr : Node α),
      update_balance_factors_and_rebalance
        (.cl x 1 (.node (.node bl bx bbf br) rx (-1) rr) :: cs) t =
      update_balance_factors_and_rebalance cs
        (.node (.node t x (if bbf = 1 then -1 else 0) bl) bx 0
          (.node br rx (if bbf = -1 then 1 else 0) rr))) ∧
    -- right-subtree deletion, bf 0 → -1: stop
    (∀ l : Node α, update_balance_factors_and_rebalance (.cr l x 0 :: cs) t =
      plug cs (.node l x (-1) t)) ∧
    -- right-subtree deletion, bf +1 → 0: continue upward
    (∀ l : Node α, update_balance_factors_and_rebalance (.cr l x 1 :: cs) t =
      update_balance_factors_and_rebalance cs (.node l x 0 t)) ∧
    -- right-subtree deletion, bf -1 → -2, sibling bf 0:
    -- single right rotation, node.bf = -1, sibling.bf = +1, stop
    (∀ (ml : Node α) mx (mr : Node α),
      update_balance_factors_and_rebalance (.cr (.node ml mx 0 mr) x (-1) :: cs) t =
      plug cs (.node ml mx 1 (.node mr x (-1) t))) ∧
    -- right-subtree deletion, bf -1 → -2, sibling bf -1:
    -- single right rotation, both balance factors 0, continue upward
    (∀ (ml : Node α) mx (mr : Node α),
      update_balance_factors_and_rebalance (.cr (.node ml mx (-1) mr) x (-1) :: cs) t =
      update_balance_factors_and_rebalance cs (.node ml mx 0 (.node mr x 0 t))) ∧
    -- right-subtree deletion, bf -1 → -2, sibling bf +1:
    -- left-right double rotation, continue upward
    (∀ (ml : Node α) mx (bl : Node α) bx bbf (br : Node α),
      update_balance_factors_and_rebalance
        (.cr (.node ml mx 1 (.node bl bx bbf br)) x (-1) :: cs) t =
      update_balance_factors_and_rebalance cs
        (.node (.node ml mx (if bbf = 1 then -1 else 0) bl) bx 0
          (.node br x (if bbf = -1 then 1 else 0) t))) := by
  refine ⟨?_, ?_, ?_, ?_, ?_, ?_, ?_, ?_, ?_, ?_⟩ <;>
    intros <;> norm_num [update_balance_factors_and_rebalance]

/-- C9: every node handed back to the caller — the displaced duplicate
returned by `insert` and the evicted node returned by `remove` — is fully
detached: both children `nil`, balance factor `0`, and neither operation
passes anything to the deleter. -/
theorem C9_returned_nodes_detached (cmp : α → α → Int) (cmpr : β → α → Int)
    (t u : AvlTree α) (a : α) (key : β) (res : RemoveRet α) :
    ((AvlTree_insert cmp t a).previous = .nil ∨
      ∃ x, (AvlTree_insert cmp t a).previous = .node .nil x 0 .nil) ∧
    (AvlTree_insert cmp t a).deleted = [] ∧
    (AvlTree_remove cmpr u key = some res →
      (res.removed = .nil ∨ ∃ x, res.removed = .node .nil x 0 .nil) ∧
      res.deleted = []) := by
  refine ⟨?_, AvlTree_insert_deleted cmp t a, ?_⟩
  · by_cases hf : (find_node_or_parent cmp a t.root).is_node
    · obtain ⟨pre, x, post, -, -, -, -, h5, -⟩ := AvlTree_insert_found cmp t a hf
      exact Or.inr ⟨x, h5⟩
    · obtain ⟨pre, post, -, -, -, h4, -⟩ :=
        AvlTree_insert_absent cmp t a (by simpa using hf)
      exact Or.inl h4
  · intro hres
    rcases AvlTree_remove_cases cmpr u key res hres with
      ⟨-, hrem, hdel, -, -⟩ | ⟨fx, pre, post, hrem, hdel, -⟩
    · exact ⟨Or.inl hrem, hdel⟩
    · exact ⟨Or.inr ⟨fx, hrem⟩, hdel⟩

/-- Concrete instance of the C9 theorem: duplicate insert and successful
remove on one-node integer trees. -/
theorem C9_witness :
    ((AvlTree_insert icmp (⟨Node.node .nil (3 : Int) 0 .nil, 1⟩ : AvlTree Int) 3).previous
        = .nil ∨
      ∃ x, (AvlTree_insert icmp (⟨Node.node .nil (3 : Int) 0 .nil, 1⟩ :
        AvlTree Int) 3).previous = .node .nil x 0 .nil) ∧
    (AvlTree_insert icmp (⟨Node.node .nil (3 : Int) 0 .nil, 1⟩ :
      AvlTree Int) 3).deleted = [] ∧
    (((⟨⟨.nil, 0⟩, .node .nil (3 : Int) 0 .nil, []⟩ : RemoveRet Int).removed = .nil ∨
      ∃ x, (⟨⟨.nil, 0⟩, .node .nil (3 : Int) 0 .nil, []⟩ :
        RemoveRet Int).removed = .node .nil x 0 .nil) ∧
      (⟨⟨.nil, 0⟩, .node .nil (3 : Int) 0 .nil, []⟩ : RemoveRet Int).deleted = []) :=
  have h := C9_returned_nodes_detached icmp icmp
    ⟨Node.node .nil (3 : Int) 0 .nil, 1⟩ ⟨Node.node .nil (3 : Int) 0 .nil, 1⟩ 3 3
    ⟨⟨.nil, 0⟩, .node .nil (3 : Int) 0 .nil, []⟩
  ⟨h.1, h.2.1, h.2.2 rfl⟩

/-- C10: `alloc_and_copy` allocates `length + 1` bytes (valid indices
`0 .. length`) and stores the null terminator at index `length + 1` — one
byte past the end of the allocation; it is the only out-of-bounds store. -/
theorem C10_alloc_and_copy_overrun (source : StringView γ) :
    (alloc_and_copy source).alloc_bytes = source.length + 1 ∧
    (source.length + 1) ∈ (alloc_and_copy source).written ∧
    source.length ∉ (alloc_and_copy source).written ∧
    ∀ i ∈ (alloc_and_copy source).written,
      (alloc_and_copy source).alloc_bytes ≤ i → i = source.length + 1 := by
  refine ⟨rfl, by simp [alloc_and_copy], ?_, ?_⟩
  · simp [alloc_and_copy, List.mem_range]
  · intro i hi hge
    simp only [alloc_and_copy, List.mem_append, List.mem_range,
      List.mem_singleton] at hi hge ⊢
    rcases hi with h | h <;> omega

/-- C2: every tree reachable from a freshly initialized tree by any
sequence of `insert`, `get_or_insert`, and `remove` (with defined
behavior), on return from each operation, has at every node a balance
factor equal to the height of its right subtree minus the height of its
left subtree, lying in `{-1, 0, +1}`, and its in-order traversal yields
the keys in non-decreasing comparator order. -/
theorem C2_reachable_invariants (cmp : α → α → Int) (t : AvlTree α)
    (hlaw : LawfulCmp cmp) (hr : Reaches cmp t) :
    EveryNode (fun l _ bf r => bf = (height r : Int) - height l ∧
      (bf = -1 ∨ bf = 0 ∨ bf = 1)) t.root ∧
    List.Chain' (fun a b => cmp a b ≤ 0) (inorder t.root) := by
  obtain ⟨ha, ho, -⟩ := reaches_invariant cmp hlaw t hr
  refine ⟨avl_everyNode t.root ha, ?_⟩
  exact List.Pairwise.chain' ((Ordered.pairwise hlaw _ ho).imp fun h => le_of_lt h)

/-- Concrete instance of the C2 theorem: the tree reached by inserting 2,
1, 3 and removing 1. -/
theorem C2_witness :
    LawfulCmp icmp ∧
    Reaches icmp (AvlTree_insert icmp (AvlTree_insert icmp
      (AvlTree_insert icmp (AvlTree_new : AvlTree Int) 2).tree 1).tree 3).tree ∧
    (EveryNode (fun l _ bf r => bf = (height r : Int) - height l ∧
        (bf = -1 ∨ bf = 0 ∨ bf = 1))
      (AvlTree_insert icmp (AvlTree_insert icmp
        (AvlTree_insert icmp (AvlTree_new : AvlTree Int) 2).tree 1).tree 3).tree.root ∧
      List.Chain' (fun a b => icmp a b ≤ 0)
        (inorder (AvlTree_insert icmp (AvlTree_insert icmp
          (AvlTree_insert icmp (AvlTree_new : AvlTree Int) 2).tree 1).tree 3).tree.root)) :=
  have hr : Reaches icmp (AvlTree_insert icmp (AvlTree_insert icmp
      (AvlTree_insert icmp (AvlTree_new : AvlTree Int) 2).tree 1).tree 3).tree :=
    Reaches.ins _ 3 (Reaches.ins _ 1 (Reaches.ins _ 2 Reaches.base))
  ⟨lawful_icmp, hr, C2_reachable_invariants icmp _ lawful_icmp hr⟩

/-- C6: `clear` (and `drop`, which the code defines as `clear`) passes
every contained payload to the deleter exactly once — the call list is
precisely the in-order traversal, without duplicates — and leaves the
tree with root `nil` and size zero; and removing every key one at a time,
in any order, produces the same final size (zero) and the same
deleter-call multiplicity (each entry evicted exactly once, none passed
to the deleter). -/
theorem C6_clear_drop_remove_equivalence (cmp : α → α → Int) (t : AvlTree α)
    (hlaw : LawfulCmp cmp) (hord : Ordered cmp t.root)
    (hlen : t.len = (inorder t.root).length) :
    (AvlTree_clear t).2 = inorder t.root ∧
    (AvlTree_clear t).2.Nodup ∧
    (AvlTree_clear t).1 = ⟨.nil, 0⟩ ∧
    AvlTree_drop t = AvlTree_clear t ∧
    ∀ ks : List α, ks.Perm (inorder t.root) →
      removeAll cmp t ks = some (⟨.nil, 0⟩, ks) := by
  refine ⟨clearLoop_eq_inorder t.root, ?_, rfl, rfl,
    fun ks hperm => removeAll_perm cmp hlaw ks t hord hlen hperm⟩
  rw [show (AvlTree_clear t).2 = inorder t.root from clearLoop_eq_inorder t.root]
  exact List.Pairwise.imp
    (fun {a b} hab heq => by
      rw [heq] at hab
      have h0 := hlaw.self_eq b
      omega)
    (Ordered.pairwise hlaw _ hord)

/-- Concrete instance of the C6 theorem on a three-node integer tree. -/
theorem C6_witness :
    LawfulCmp icmp ∧
    Ordered icmp (⟨Node.node (.node .nil (1 : Int) 0 .nil) 2 0
      (.node .nil 3 0 .nil), 3⟩ : AvlTree Int).root ∧
    (⟨Node.node (.node .nil (1 : Int) 0 .nil) 2 0 (.node .nil 3 0 .nil), 3⟩ :
      AvlTree Int).len = (inorder (⟨Node.node (.node .nil (1 : Int) 0 .nil) 2 0
        (.node .nil 3 0 .nil), 3⟩ : AvlTree Int).root).length ∧
    ((AvlTree_clear (⟨Node.node (.node .nil (1 : Int) 0 .nil) 2 0
        (.node .nil 3 0 .nil), 3⟩ : AvlTree Int)).2 =
      inorder (⟨Node.node (.node .nil (1 : Int) 0 .nil) 2 0
        (.node .nil 3 0 .nil), 3⟩ : AvlTree Int).root ∧
      (AvlTree_clear (⟨Node.node (.node .nil (1 : Int) 0 .nil) 2 0
        (.node .nil 3 0 .nil), 3⟩ : AvlTree Int)).2.Nodup ∧
      (AvlTree_clear (⟨Node.node (.node .nil (1 : Int) 0 .nil) 2 0
        (.node .nil 3 0 .nil), 3⟩ : AvlTree Int)).1 = ⟨.nil, 0⟩ ∧
      AvlTree_drop (⟨Node.node (.node .nil (1 : Int) 0 .nil) 2 0
        (.node .nil 3 0 .nil), 3⟩ : AvlTree Int) =
        AvlTree_clear (⟨Node.node (.node .nil (1 : Int) 0 .nil) 2 0
          (.node .nil 3 0 .nil), 3⟩ : AvlTree Int) ∧
      ∀ ks : List Int, ks.Perm (inorder (⟨Node.node (.node .nil (1 : Int) 0 .nil) 2 0
          (.node .nil 3 0 .nil), 3⟩ : AvlTree Int).root) →
        removeAll icmp (⟨Node.node (.node .nil (1 : Int) 0 .nil) 2 0
          (.node .nil 3 0 .nil), 3⟩ : AvlTree Int) ks = some (⟨.nil, 0⟩, ks)) :=
  ⟨lawful_icmp, by decide, by decide,
    C6_clear_drop_remove_equivalence icmp
      ⟨Node.node (.node .nil (1 : Int) 0 .nil) 2 0 (.node .nil 3 0 .nil), 3⟩
      lawful_icmp (by decide) (by decide)⟩

/-- C7: at every reachable quiescent state the `len` counter equals the
number of nodes reachable from the root (`size`); `insert` of an absent
key increments it by exactly one, `insert` of a duplicate leaves it
unchanged, and a `remove` that returns a node decrements it by exactly
one (the count is at least 1 beforehand). -/
theorem C7_size_accuracy (cmp : α → α → Int) (t : AvlTree α)
    (hlaw : LawfulCmp cmp) (hr : Reaches cmp t) :
    t.len = size t.root ∧
    (∀ a, (find_node_or_parent cmp a t.root).is_node = false →
      (AvlTree_insert cmp t a).tree.len = t.len + 1) ∧
    (∀ a, (find_node_or_parent cmp a t.root).is_node = true →
      (AvlTree_insert cmp t a).tree.len = t.len) ∧
    (∀ (k : α) (res : RemoveRet α), AvlTree_remove cmp t k = some res →
      res.removed ≠ .nil → res.tree.len = t.len - 1 ∧ 1 ≤ t.len) := by
  obtain ⟨-, -, hlen⟩ := reaches_invariant cmp hlaw t hr
  refine ⟨by rw [hlen, size_eq_length_inorder], ?_, ?_, ?_⟩
  · intro a habs
    obtain ⟨-, -, -, -, h3, -⟩ := AvlTree_insert_absent cmp t a habs
    exact h3
  · intro a hf
    obtain ⟨-, -, -, -, -, -, h4, -⟩ := AvlTree_insert_found cmp t a hf
    exact h4
  · intro k res hres hne
    rcases AvlTree_remove_cases cmp t k res hres with
      ⟨-, hrem, -, -, -⟩ | ⟨fx, pre, post, -, -, -, hio, -, hlen2, -⟩
    · exact absurd hrem hne
    · refine ⟨hlen2, ?_⟩
      rw [hlen, hio]
      simp only [List.length_append, List.length_cons]
      omega

/-- Concrete instance of the C7 theorem at the reachable two-node tree
obtained by inserting 1 and 2. -/
theorem C7_witness :
    LawfulCmp icmp ∧
    Reaches icmp (AvlTree_insert icmp
      (AvlTree_insert icmp (AvlTree_new : AvlTree Int) 1).tree 2).tree ∧
    ((AvlTree_insert icmp
        (AvlTree_insert icmp (AvlTree_new : AvlTree Int) 1).tree 2).tree.len =
      size (AvlTree_insert icmp
        (AvlTree_insert icmp (AvlTree_new : AvlTree Int) 1).tree 2).tree.root ∧
      (∀ a, (find_node_or_parent icmp a (AvlTree_insert icmp
          (AvlTree_insert icmp (AvlTree_new : AvlTree Int) 1).tree 2).tree.root).is_node
            = false →
        (AvlTree_insert icmp (AvlTree_insert icmp
          (AvlTree_insert icmp (AvlTree_new : AvlTree Int) 1).tree 2).tree a).tree.len =
          (AvlTree_insert icmp
            (AvlTree_insert icmp (AvlTree_new : AvlTree Int) 1).tree 2).tree.len + 1) ∧
      (∀ a, (find_node_or_parent icmp a (AvlTree_insert icmp
          (AvlTree_insert icmp (AvlTree_new : AvlTree Int) 1).tree 2).tree.root).is_node
            = true →
        (AvlTree_insert icmp (AvlTree_insert icmp
          (AvlTree_insert icmp (AvlTree_new : AvlTree Int) 1).tree 2).tree a).tree.len =
          (AvlTree_insert icmp
            (AvlTree_insert icmp (AvlTree_new : AvlTree Int) 1).tree 2).tree.len) ∧
      (∀ (k : Int) (res : RemoveRet Int),
        AvlTree_remove icmp (AvlTree_insert icmp
          (AvlTree_insert icmp (AvlTree_new : AvlTree Int) 1).tree 2).tree k = some res →
        res.removed ≠ .nil →
        res.tree.len = (AvlTree_insert icmp
          (AvlTree_insert icmp (AvlTree_new : AvlTree Int) 1).tree 2).tree.len - 1 ∧
        1 ≤ (AvlTree_insert icmp
          (AvlTree_insert icmp (AvlTree_new : AvlTree Int) 1).tree 2).tree.len)) :=
  have hr : Reaches icmp (AvlTree_insert icmp
      (AvlTree_insert icmp (AvlTree_new : AvlTree Int) 1).tree 2).tree :=
    Reaches.ins _ 2 (Reaches.ins _ 1 Reaches.base)
  ⟨lawful_icmp, hr, C7_size_accuracy icmp _ lawful_icmp hr⟩

/-- C8: `get_or_insert` invokes the factory at most once, and only when
no entry comparing equal to the key is present; when the key was present
it returns the existing payload with the `inserted` flag 0 and the tree
unmodified, and when it was absent it invokes the factory exactly once,
links its node into the traversal, increments the size, and sets the
flag to 1. -/
theorem C8_get_or_insert_factory (cmp : α → α → Int) (t : AvlTree α) (key : α)
    (fac : Unit → α) (hlaw : LawfulCmp cmp) (hord : Ordered cmp t.root) :
    (AvlTree_get_or_insert cmp t key fac).factory_calls ≤ 1 ∧
    ((∃ x ∈ inorder t.root, cmp key x = 0) →
      (AvlTree_get_or_insert cmp t key fac).factory_calls = 0 ∧
      (AvlTree_get_or_insert cmp t key fac).inserted = 0 ∧
      (AvlTree_get_or_insert cmp t key fac).tree = t ∧
      ∃ x, (AvlTree_get_or_insert cmp t key fac).result = x ∧
        x ∈ inorder t.root ∧ cmp key x = 0) ∧
    ((¬ ∃ x ∈ inorder t.root, cmp key x = 0) →
      (AvlTree_get_or_insert cmp t key fac).factory_calls = 1 ∧
      (AvlTree_get_or_insert cmp t key fac).inserted = 1 ∧
      (AvlTree_get_or_insert cmp t key fac).tree.len = t.len + 1 ∧
      (AvlTree_get_or_insert cmp t key fac).result = fac () ∧
      ∃ pre post, inorder t.root = pre ++ post ∧
        inorder (AvlTree_get_or_insert cmp t key fac).tree.root =
          pre ++ fac () :: post) := by
  by_cases hmem : ∃ x ∈ inorder t.root, cmp key x = 0
  · have hfound := (fnop_is_node_iff_mem cmp hlaw key t.root hord).mpr hmem
    obtain ⟨h1, h2, h3, h4⟩ := AvlTree_get_or_insert_found cmp t key fac hfound
    exact ⟨by rw [h3]; omega, fun _ => ⟨h3, h2, h1, h4⟩, fun hn => absurd hmem hn⟩
  · have habs : (find_node_or_parent cmp key t.root).is_node = false := by
      rcases hb : (find_node_or_parent cmp key t.root).is_node with - | -
      · rfl
      · exact absurd ((fnop_is_node_iff_mem cmp hlaw key t.root hord).mp hb) hmem
    obtain ⟨pre, post, h1, h2, h3, h4, h5, -, -⟩ :=
      AvlTree_get_or_insert_absent cmp t key fac habs
    have hres : (AvlTree_get_or_insert cmp t key fac).result = fac () := by
      rw [AvlTree_get_or_insert_eq_absent cmp t key fac habs]
    exact ⟨by rw [h5], fun hm => absurd hm hmem,
      fun _ => ⟨h5, h4, h3, hres, pre, post, h1, h2⟩⟩

/-- Concrete instance of the C8 theorem on a one-node integer tree with a
constant factory. -/
theorem C8_witness :
    LawfulCmp icmp ∧
    Ordered icmp (⟨Node.node .nil (5 : Int) 0 .nil, 1⟩ : AvlTree Int).root ∧
    ((AvlTree_get_or_insert icmp (⟨Node.node .nil (5 : Int) 0 .nil, 1⟩ :
        AvlTree Int) 7 (fun _ => 7)).factory_calls ≤ 1 ∧
      ((∃ x ∈ inorder (⟨Node.node .nil (5 : Int) 0 .nil, 1⟩ : AvlTree Int).root,
          icmp 7 x = 0) →
        (AvlTree_get_or_insert icmp (⟨Node.node .nil (5 : Int) 0 .nil, 1⟩ :
          AvlTree Int) 7 (fun _ => 7)).factory_calls = 0 ∧
        (AvlTree_get_or_insert icmp (⟨Node.node .nil (5 : Int) 0 .nil, 1⟩ :
          AvlTree Int) 7 (fun _ => 7)).inserted = 0 ∧
        (AvlTree_get_or_insert icmp (⟨Node.node .nil (5 : Int) 0 .nil, 1⟩ :
          AvlTree Int) 7 (fun _ => 7)).tree =
          (⟨Node.node .nil (5 : Int) 0 .nil, 1⟩ : AvlTree Int) ∧
        ∃ x, (AvlTree_get_or_insert icmp (⟨Node.node .nil (5 : Int) 0 .nil, 1⟩ :
            AvlTree Int) 7 (fun _ => 7)).result = x ∧
          x ∈ inorder (⟨Node.node .nil (5 : Int) 0 .nil, 1⟩ : AvlTree Int).root ∧
          icmp 7 x = 0) ∧
      ((¬ ∃ x ∈ inorder (⟨Node.node .nil (5 : Int) 0 .nil, 1⟩ : AvlTree Int).root,
          icmp 7 x = 0) →
        (AvlTree_get_or_insert icmp (⟨Node.node .nil (5 : Int) 0 .nil, 1⟩ :
          AvlTree Int) 7 (fun _ => 7)).factory_calls = 1 ∧
        (AvlTree_get_or_insert icmp (⟨Node.node .nil (5 : Int) 0 .nil, 1⟩ :
          AvlTree Int) 7 (fun _ => 7)).inserted = 1 ∧
        (AvlTree_get_or_insert icmp (⟨Node.node .nil (5 : Int) 0 .nil, 1⟩ :
          AvlTree Int) 7 (fun _ => 7)).tree.len =
          (⟨Node.node .nil (5 : Int) 0 .nil, 1⟩ : AvlTree Int).len + 1 ∧
        (AvlTree_get_or_insert icmp (⟨Node.node .nil (5 : Int) 0 .nil, 1⟩ :
          AvlTree Int) 7 (fun _ => 7)).result = (fun _ : Unit => (7 : Int)) () ∧
        ∃ pre post,
          inorder (⟨Node.node .nil (5 : Int) 0 .nil, 1⟩ : AvlTree Int).root =
            pre ++ post ∧
          inorder (AvlTree_get_or_insert icmp (⟨Node.node .nil (5 : Int) 0 .nil, 1⟩ :
            AvlTree Int) 7 (fun _ => 7)).tree.root =
            pre ++ (fun _ : Unit => (7 : Int)) () :: post)) :=
  ⟨lawful_icmp, by decide,
    C8_get_or_insert_factory icmp ⟨Node.node .nil (5 : Int) 0 .nil, 1⟩ 7
      (fun _ => 7) lawful_icmp (by decide)⟩

/-- C5: when `insert` attaches a node for an absent key into a non-empty
tree, the retrace starts at the rotate root — the deepest ancestor on the
descent path whose balance factor was nonzero (the root edge when every
ancestor's factor was zero, every strictly deeper ancestor on the trail
having factor zero) — it adjusts the balance factor of each node along
the saved trail by `-1` when the descent went left there and `+1` when it
went right, and the final tree applies exactly zero or one rotation
(single or double), at the rotate root. -/
theorem C5_insert_rotate_root (cmp : α → α → Int) (t : AvlTree α) (a : α)
    (hroot : t.root ≠ .nil)
    (habs : (find_node_or_parent cmp a t.root).is_node = false) :
    ∃ rp trail,
      (find_node_or_parent cmp a t.root).rotate_path = some rp ∧
      (find_node_or_parent cmp a t.root).trail = trail ∧
      (find_node_or_parent cmp a t.root).path = rp ++ trail ∧
      trail ≠ [] ∧
      (rp = [] ∨ bfAt t.root rp ≠ 0) ∧
      (∀ q, q ≠ [] → q ≠ trail → q <+: trail → bfAt t.root (rp ++ q) = 0) ∧
      subtreeAt t.root (rp ++ trail) = .nil ∧
      (∀ q d, (q ++ [d]) <+: trail →
        bfAt (adjustPath (subtreeAt
            (replaceAt t.root (rp ++ trail) (.node .nil a 0 .nil)) rp) trail) q =
          bfAt (subtreeAt
            (replaceAt t.root (rp ++ trail) (.node .nil a 0 .nil)) rp) q +
          (if d = Dir.l then -1 else 1)) ∧
      ∃ u, (AvlTree_insert cmp t a).tree.root =
          replaceAt (replaceAt t.root (rp ++ trail) (.node .nil a 0 .nil)) rp u ∧
        (u = adjustPath (subtreeAt
            (replaceAt t.root (rp ++ trail) (.node .nil a 0 .nil)) rp) trail ∨
          OneRotation (adjustPath (subtreeAt
            (replaceAt t.root (rp ++ trail) (.node .nil a 0 .nil)) rp) trail) u) := by
  obtain ⟨rp, hrp, hpteq, hpath, hslot, -, htrne, hzero, hdisj, -⟩ :=
    (fnop_spec cmp a t.root hroot).2 habs
  rw [hpteq] at hpath hslot
  refine ⟨rp, (find_node_or_parent cmp a t.root).trail, hrp, rfl, hpteq, htrne,
    hdisj, hzero, hslot, ?_, ?_⟩
  · intro q d hqd
    have hne : subtreeAt (subtreeAt
        (replaceAt t.root (rp ++ (find_node_or_parent cmp a t.root).trail)
          (.node .nil a 0 .nil)) rp) q ≠ .nil := by
      obtain ⟨rest, hrest⟩ := hqd
      have hfull : rp ++ (find_node_or_parent cmp a t.root).trail =
          ((rp ++ q) ++ [d]) ++ rest := by
        rw [← hrest]
        simp [List.append_assoc]
      have hispath : IsPath t.root ((rp ++ q) ++ [d]) := by
        rw [hfull] at hpath
        exact ((IsPath_append _ _ _).mp hpath).1
      have hne2 := subtreeAt_replaceAt_prefix_ne_nil (rp ++ q) t.root d rest
        (.node .nil a 0 .nil) hispath
      rw [← hfull] at hne2
      rw [← subtreeAt_append]
      exact hne2
    exact adjustPath_bfAt q _ (find_node_or_parent cmp a t.root).trail d hqd hne
  · refine ⟨rotate (adjustPath (subtreeAt
      (replaceAt t.root (rp ++ (find_node_or_parent cmp a t.root).trail)
        (.node .nil a 0 .nil)) rp) (find_node_or_parent cmp a t.root).trail),
      ?_, rotate_eq_or_one _⟩
    rw [AvlTree_insert_eq_absent cmp t a habs]
    show attachRoot cmp a a t.root = _
    simp only [attachRoot, hrp, hpteq, rebalance]

/-- Concrete instance of the C5 theorem: inserting 1 into the two-node
tree {3, 5} (root balance factor -1) forces a single right rotation. -/
theorem C5_witness :
    ((⟨Node.node (.node .nil (3 : Int) 0 .nil) 5 (-1) .nil, 2⟩ :
      AvlTree Int).root ≠ .nil) ∧
    ((find_node_or_parent icmp 1 (⟨Node.node (.node .nil (3 : Int) 0 .nil) 5 (-1)
      .nil, 2⟩ : AvlTree Int).root).is_node = false) ∧
    (∃ rp trail,
      (find_node_or_parent icmp 1 (⟨Node.node (.node .nil (3 : Int) 0 .nil) 5 (-1)
        .nil, 2⟩ : AvlTree Int).root).rotate_path = some rp ∧
      (find_node_or_parent icmp 1 (⟨Node.node (.node .nil (3 : Int) 0 .nil) 5 (-1)
        .nil, 2⟩ : AvlTree Int).root).trail = trail ∧
      (find_node_or_parent icmp 1 (⟨Node.node (.node .nil (3 : Int) 0 .nil) 5 (-1)
        .nil, 2⟩ : AvlTree Int).root).path = rp ++ trail ∧
      trail ≠ [] ∧
      (rp = [] ∨ bfAt (⟨Node.node (.node .nil (3 : Int) 0 .nil) 5 (-1) .nil, 2⟩ :
        AvlTree Int).root rp ≠ 0) ∧
      (∀ q, q ≠ [] → q ≠ trail → q <+: trail →
        bfAt (⟨Node.node (.node .nil (3 : Int) 0 .nil) 5 (-1) .nil, 2⟩ :
          AvlTree Int).root (rp ++ q) = 0) ∧
      subtreeAt (⟨Node.node (.node .nil (3 : Int) 0 .nil) 5 (-1) .nil, 2⟩ :
        AvlTree Int).root (rp ++ trail) = .nil ∧
      (∀ q d, (q ++ [d]) <+: trail →
        bfAt (adjustPath (subtreeAt
            (replaceAt (⟨Node.node (.node .nil (3 : Int) 0 .nil) 5 (-1) .nil, 2⟩ :
              AvlTree Int).root (rp ++ trail) (.node .nil 1 0 .nil)) rp) trail) q =
          bfAt (subtreeAt
            (replaceAt (⟨Node.node (.node .nil (3 : Int) 0 .nil) 5 (-1) .nil, 2⟩ :
              AvlTree Int).root (rp ++ trail) (.node .nil 1 0 .nil)) rp) q +
          (if d = Dir.l then -1 else 1)) ∧
      ∃ u, (AvlTree_insert icmp (⟨Node.node (.node .nil (3 : Int) 0 .nil) 5 (-1)
            .nil, 2⟩ : AvlTree Int) 1).tree.root =
          replaceAt (replaceAt (⟨Node.node (.node .nil (3 : Int) 0 .nil) 5 (-1)
            .nil, 2⟩ : AvlTree Int).root (rp ++ trail) (.node .nil 1 0 .nil)) rp u ∧
        (u = adjustPath (subtreeAt
            (replaceAt (⟨Node.node (.node .nil (3 : Int) 0 .nil) 5 (-1) .nil, 2⟩ :
              AvlTree Int).root (rp ++ trail) (.node .nil 1 0 .nil)) rp) trail ∨
          OneRotation (adjustPath (subtreeAt
            (replaceAt (⟨Node.node (.node .nil (3 : Int) 0 .nil) 5 (-1) .nil, 2⟩ :
              AvlTree Int).root (rp ++ trail) (.node .nil 1 0 .nil)) rp) trail) u)) :=
  ⟨by intro h; exact Node.noConfusion h, by decide,
    C5_insert_rotate_root icmp
      ⟨Node.node (.node .nil (3 : Int) 0 .nil) 5 (-1) .nil, 2⟩ 1
      (by intro h; exact Node.noConfusion h) (by decide)⟩

end Bloodhound
